import Mathlib

/-!
Verification of the schema-diff and migration-plan engine of
`peeweedbevolve.py` (peewee-db-evolve), as a shallow embedding in Lean 4.

Conventions of the embedding:
* Python strings are `String`; comparisons use string equality.
* Python sets are Lean lists without duplicates (built with `dedup` and
  `filter`); Python iterates sets in an unspecified order, the embedding
  fixes one concrete order, which no proved statement depends on.
* Python dicts are association lists; assignment is `dictInsert`
  (replace-in-place or append, as CPython keeps insertion order on
  reassignment) and lookup is `lookupLast` (later bindings shadow earlier
  ones, matching dict-comprehension semantics).
* Fallible code returns `Except String`.
* The SQL text produced by peewee's compiler/migrator is abstracted into
  the inductive type `Stmt` of plan statements; the one statement whose
  text the source constructs itself (the inert `--` warning) carries its
  literal text.
-/

namespace PeeweeDbEvolve

/-- Association-list lookup where later bindings shadow earlier ones,
the observable lookup behaviour of a Python dict built by repeated
assignment or by a comprehension. -/
def lookupLast {α : Type} (l : List (String × α)) (k : String) : Option α :=
  match l with
  | [] => none
  | p :: rest =>
    match lookupLast rest k with
    | some v => some v
    | none => if p.1 = k then some p.2 else none

/-- Python dict assignment `d[k] = v`: replace the binding in place when
the key is present (CPython keeps the original insertion position),
otherwise append the new binding. -/
def dictInsert {α : Type} (k : String) (v : α) (d : List (String × α)) :
    List (String × α) :=
  if d.any (fun p => p.1 == k) then
    d.map (fun p => if p.1 = k then (k, v) else p)
  else
    d ++ [(k, v)]

/-- Python `str.lower()` restricted to the character-wise case fold used
by the source's type vocabulary. -/
def pyLower (s : String) : String :=
  ⟨s.toList.map Char.toLower⟩

/-- Python `str.strip()`: remove whitespace from both ends, as a
character list. -/
def pyStrip (s : String) : List Char :=
  ((s.toList.dropWhile Char.isWhitespace).reverse.dropWhile
    Char.isWhitespace).reverse

/-- Test for `sql.strip().startswith(comment-marker)`, the guard `_execute`
uses to skip inert statements. -/
def isCommentLine (s : String) : Bool :=
  ['-', '-'].isPrefixOf (pyStrip s)

/-- The regular expression `^varchar[(]\d+[)]$` (`_re_varchar`), spelled
out on the character list: literal prefix, one or more digits, closing
parenthesis, end of string. -/
def is_varchar_n (t : String) : Bool :=
  "varchar(".toList.isPrefixOf t.toList &&
  t.toList.getLast? == some ')' &&
  (let mid := (t.toList.drop 8).dropLast
   !mid.isEmpty && mid.all Char.isDigit)

/-- `normalize_column_type` from the source: lowercase, fold the dialect
synonyms `serial`, `character varying`, `timestamp without time zone`,
`double precision`, and collapse any `varchar(N)` to `varchar`. The five
rewrites are applied sequentially to the running value, as in the source. -/
def normalize_column_type (t : String) : String :=
  let t := pyLower t
  let t := if t = "serial" then "integer" else t
  let t := if t = "character varying" then "varchar" else t
  let t := if t = "timestamp without time zone" then "timestamp" else t
  let t := if t = "double precision" then "real" else t
  let t := if is_varchar_n t then "varchar" else t
  t

/-- One introspected or declared column (`pw.ColumnMetadata`). -/
structure ColumnMetadata where
  name : String
  data_type : String
  null : Bool
  primary_key : Bool
  table : String
deriving DecidableEq

/-- One foreign-key constraint row (`ForeignKeyMetadata` namedtuple). -/
structure ForeignKeyMetadata where
  column : String
  dest_table : String
  dest_column : String
  table : String
  name : String
deriving DecidableEq

/-- One declared peewee field, with the attributes the diff engine reads:
`db_column`, the raw column type string reported by `get_column_type()`,
nullability, primary-key flag, the destination table when the field is a
`ForeignKeyField` (`none` otherwise), the `aka` rename hints (empty list
when the attribute is absent, which iterates identically), and the
truthiness of `field.default` (the source only ever branches on it). -/
structure Field where
  db_column : String
  column_type : String
  null : Bool
  primary_key : Bool
  fk_dest : Option String
  akas : List String
  default : Bool
deriving DecidableEq

/-- One registered model class: its `_meta.db_table`, the `_meta.aka`
alias list (a bare string is wrapped into a one-element list by the
source; absence is the empty list), and `_meta.sorted_fields`. -/
structure Model where
  db_table : String
  aka : List String
  fields : List Field
deriving DecidableEq

/-- `normalize_field_type`: normalize the type string the field reports. -/
def normalize_field_type (f : Field) : String :=
  normalize_column_type f.column_type

/-- `can_convert` from the source: every pair of types is declared
convertible. -/
def can_convert (_type1 _type2 : String) : Bool :=
  true

/-- `column_def_changed`: two column definitions differ when nullability,
normalized data type, or the primary-key flag differ. -/
def column_def_changed (a b : ColumnMetadata) : Bool :=
  a.null != b.null || a.data_type != b.data_type ||
    a.primary_key != b.primary_key

/-- Boolean rendering used inside the unsupported-change error message. -/
def boolRepr (b : Bool) : String :=
  if b then "True" else "False"

/-- Rendering of a `ColumnMetadata` for the unsupported-change error
message (the namedtuple repr interpolated by the source's `%s`). -/
def columnRepr (c : ColumnMetadata) : String :=
  "ColumnMetadata(name=" ++ c.name ++ ", data_type=" ++ c.data_type ++
    ", null=" ++ boolRepr c.null ++ ", primary_key=" ++
    boolRepr c.primary_key ++ ", table=" ++ c.table ++ ")"

/-- The message of the exception raised on an unsupported column change:
it names both the existing and the declared column definition. -/
def unsupportedMsg (a b : ColumnMetadata) : String :=
  "i don\x27t know how to change " ++ columnRepr a ++ " into " ++
    columnRepr b

/-- One abstract plan statement. Statement text generation by peewee's
compiler/migrator is outside the source; the plan is modelled at the
granularity of the operations the source appends, in order. `comment`
carries the literal inert text the source itself inserts into the plan. -/
inductive Stmt where
  | createTable (table : String)
  | renameTable (oldName newName : String)
  | addColumn (table column : String)
  | applyDefault (table column : String)
  | comment (text : String)
  | addNotNull (table column : String)
  | dropNotNull (table column : String)
  | dropColumn (table column : String)
  | renameColumn (table oldName newName : String)
  | fkAdd (table column : String)
  | fkDrop (table constraintName : String)
  | dropTable (table : String)
deriving DecidableEq

/-- The per-run association of table names to registered models
(`{cls._meta.db_table: cls for cls in all_models.keys()}`). -/
def modelByTable (models : List Model) : List (String × Model) :=
  models.map (fun m => (m.db_table, m))

/-- Foreign-key dependencies of one table: the destination tables of its
declared foreign-key fields. -/
def modelDeps (models : List Model) (t : String) : List String :=
  match lookupLast (modelByTable models) t with
  | some m => m.fields.filterMap (fun f => f.fk_dest)
  | none => []

/-- Modelled from the spec: the topological sort over the foreign-key
dependency graph performed by peewee's `sort_models_topologically`, whose
code is not under `src/`. Per the spec, a table must come after every
table it foreign-keys among those being created in the same run, and a
dependency cycle fails loudly instead of silently misordering. Kahn-style:
repeatedly take the first remaining table all of whose dependencies have
left the remaining set; error out when none is ready. -/
def topoSortGo (deps : String → List String) :
    Nat → List String → List String → Except String (List String)
  | _, [], acc => .ok acc.reverse
  | 0, _ :: _, _ => .error "foreign-key dependency cycle"
  | Nat.succ n, remaining, acc =>
    match remaining.find? (fun t => (deps t).all (fun d => !remaining.contains d)) with
    | some t => topoSortGo deps n (remaining.erase t) (t :: acc)
    | none => .error "foreign-key dependency cycle"

/-- Modelled from the spec: entry point of the topological sort. -/
def topoSort (deps : String → List String) (tables : List String) :
    Except String (List String) :=
  topoSortGo deps tables.length tables []

/-- `sort_by_fk_deps`: order the tables to create so that every table
follows the tables it foreign-keys into (delegated to the spec-modelled
`topoSort`; the source delegates to peewee's `sort_models_topologically`,
which is not under `src/`). -/
def sort_by_fk_deps (models : List Model) (table_names : List String) :
    Except String (List String) :=
  topoSort (modelDeps models) table_names

/-- State threaded through the table-level rename-resolution loop:
the evolving `adds` and `deletes` sets and the `renames` dict. -/
structure TableState where
  adds : List String
  deletes : List String
  renames : List (String × String)
deriving DecidableEq

/-- The declared table names (`set(table_names_to_models.keys())`). -/
def definedTableNames (models : List Model) : List String :=
  (models.map (fun m => m.db_table)).dedup

/-- Initial add-set of `calc_table_changes`: declared minus existing. -/
def tableAdds0 (models : List Model) (existing_tables : List String) :
    List String :=
  (definedTableNames models).filter (fun t => !existing_tables.dedup.contains t)

/-- Initial delete-set of `calc_table_changes`: existing minus declared. -/
def tableDels0 (models : List Model) (existing_tables : List String) :
    List String :=
  existing_tables.dedup.filter (fun t => !(definedTableNames models).contains t)

/-- One iteration of the table rename-resolution loop: for the table
`to_add`, take the first `aka` alias present in the current delete-set,
record the rename, and remove the pair from both sets (`break` after the
first hit). -/
def tableRenameStep (models : List Model) (to_add : String)
    (st : TableState) : TableState :=
  match lookupLast (modelByTable models) to_add with
  | none => st
  | some cls =>
    match cls.aka.find? (fun a => st.deletes.contains a) with
    | some a =>
      { adds := st.adds.erase to_add
        deletes := st.deletes.erase a
        renames := dictInsert a to_add st.renames }
    | none => st

/-- The table rename-resolution loop, folded over a snapshot of the
initial add-set (`for to_add in list(adds)`). -/
def tableFold (models : List Model) (existing_tables : List String) :
    TableState :=
  (tableAdds0 models existing_tables).foldl
    (fun st t => tableRenameStep models t st)
    ⟨tableAdds0 models existing_tables, tableDels0 models existing_tables, []⟩

/-- `calc_table_changes`: compute table-level `(adds, deletes, renames)`,
with the surviving add-set sorted by foreign-key dependencies. -/
def calc_table_changes (models : List Model) (existing_tables : List String) :
    Except String (List String × List String × List (String × String)) :=
  match sort_by_fk_deps models (tableFold models existing_tables).adds with
  | .ok sorted =>
    .ok (sorted, (tableFold models existing_tables).deletes,
      (tableFold models existing_tables).renames)
  | .error e => .error e

/-- Python dict comprehension `{v: k for k, v in d.items()}`: invert an
association list, later bindings shadowing earlier ones on key collision. -/
def invertDict (d : List (String × String)) : List (String × String) :=
  d.foldl (fun acc p => dictInsert p.2 p.1 acc) []

/-- `{unicode(f.db_column): f for f in defined_fields}`. -/
def fieldDict (fields : List Field) : List (String × Field) :=
  fields.map (fun f => (f.db_column, f))

/-- Existing columns with their reported types normalized
(`pw.ColumnMetadata(c.name, normalize_column_type(c.data_type), ...)`). -/
def normExisting (ecols : List ColumnMetadata) : List ColumnMetadata :=
  ecols.map (fun c =>
    ⟨c.name, normalize_column_type c.data_type, c.null, c.primary_key, c.table⟩)

/-- The declared columns of the (possibly renamed) table `ntn`, one per
declared field, with normalized types. -/
def definedColumns (ntn : String) (fields : List Field) :
    List ColumnMetadata :=
  fields.map (fun f =>
    ⟨f.db_column, normalize_field_type f, f.null, f.primary_key, ntn⟩)

/-- `{c.name: c for c in cols}`. -/
def colDict (cols : List ColumnMetadata) : List (String × ColumnMetadata) :=
  cols.map (fun c => (c.name, c))

/-- `{fk.column: fk for fk in existing_fks}`. -/
def fkDict (fks : List ForeignKeyMetadata) :
    List (String × ForeignKeyMetadata) :=
  fks.map (fun fk => (fk.column, fk))

/-- The existing column-name set of one table. -/
def existingColNames (ecols : List ColumnMetadata) : List String :=
  ((normExisting ecols).map (fun c => c.name)).dedup

/-- The declared column-name set of one table. -/
def definedColNames (ntn : String) (fields : List Field) : List String :=
  ((definedColumns ntn fields).map (fun c => c.name)).dedup

/-- Initial `new_cols`: declared minus existing. -/
def initialNewCols (ntn : String) (ecols : List ColumnMetadata)
    (fields : List Field) : List String :=
  (definedColNames ntn fields).filter
    (fun c => !(existingColNames ecols).contains c)

/-- Initial `delete_cols`: existing minus declared. -/
def initialDeleteCols (ntn : String) (ecols : List ColumnMetadata)
    (fields : List Field) : List String :=
  (existingColNames ecols).filter
    (fun c => !(definedColNames ntn fields).contains c)

/-- State threaded through the column rename-resolution loop. -/
structure ColState where
  new_cols : List String
  delete_cols : List String
  rename_cols : List (String × String)
deriving DecidableEq

/-- Body of the inner alias loop of the column rename resolution: when
the alias is in the current delete-set and the existing column converts
(always true), record the rename and remove the pair from both sets. -/
def colRenameAka (exD : List (String × ColumnMetadata))
    (sc : ColumnMetadata) (cn : String) (st : ColState) (aka : String) :
    ColState :=
  if aka ∈ st.delete_cols then
    match lookupLast exD aka with
    | some ec =>
      if can_convert sc.data_type ec.data_type then
        { new_cols := st.new_cols.erase cn
          delete_cols := st.delete_cols.erase aka
          rename_cols := dictInsert ec.name sc.name st.rename_cols }
      else st
    | none => st
  else st

/-- One iteration of the column rename-resolution loop, for the declared
new column `cn`: every alias of its field found in the current delete-set
is recorded as a rename (the loop has no `break`). -/
def colRenameStep (dfD exD : List (String × ColumnMetadata))
    (fieldOf : List (String × Field)) (cn : String) (st : ColState) :
    ColState :=
  match lookupLast fieldOf cn, lookupLast dfD cn with
  | some field, some sc => field.akas.foldl (colRenameAka exD sc cn) st
  | _, _ => st

/-- The column rename-resolution loop, folded over a snapshot of the
initial `new_cols` (`for cn in list(new_cols)`). -/
def colFold (ntn : String) (ecols : List ColumnMetadata)
    (fields : List Field) : ColState :=
  (initialNewCols ntn ecols fields).foldl
    (fun st cn =>
      colRenameStep (colDict (definedColumns ntn fields))
        (colDict (normExisting ecols)) (fieldDict fields) cn st)
    ⟨initialNewCols ntn ecols fields, initialDeleteCols ntn ecols fields, []⟩

/-- `renames_new_to_old = {v: k for k, v in rename_cols.items()}`. -/
def renamesNewToOld (ntn : String) (ecols : List ColumnMetadata)
    (fields : List Field) : List (String × String) :=
  invertDict (colFold ntn ecols fields).rename_cols

/-- `not_new_columns = defined_col_names - new_cols` (after renames). -/
def notNewColumns (ntn : String) (ecols : List ColumnMetadata)
    (fields : List Field) : List String :=
  (definedColNames ntn fields).filter
    (fun c => !(colFold ntn ecols fields).new_cols.contains c)

/-- `renames_new_to_old.get(col_name, col_name)`: the pre-rename existing
name of a surviving column. -/
def oldColName (n2o : List (String × String)) (c : String) : String :=
  (lookupLast n2o c).getD c

/-- The metadata-change alters of one surviving column: a recognized
nullability transition emits one alter; any other difference raises the
unsupported-change error naming both definitions. -/
def emitMeta (exD dfD : List (String × ColumnMetadata))
    (n2o : List (String × String)) (ntn : String) (cn : String) :
    Except String (List Stmt) :=
  match lookupLast exD (oldColName n2o cn), lookupLast dfD cn with
  | some existing_col, some defined_col =>
    if column_def_changed existing_col defined_col then
      let s1 := if existing_col.null && !defined_col.null then
        [Stmt.addNotNull ntn defined_col.name] else []
      let s2 := if !existing_col.null && defined_col.null then
        [Stmt.dropNotNull ntn defined_col.name] else []
      if (s1 ++ s2).isEmpty then
        .error (unsupportedMsg existing_col defined_col)
      else
        .ok (s1 ++ s2)
    else .ok []
  | _, _ => .ok []

/-- The foreign-key alters of one surviving column: a declared foreign
key with no existing constraint on the (pre-rename) column emits one
foreign-key add; a non-foreign-key declared field with an existing
constraint emits one drop naming the existing constraint. -/
def emitFk (fksBy : List (String × ForeignKeyMetadata))
    (fieldOf : List (String × Field)) (n2o : List (String × String))
    (ntn : String) (cn : String) : List Stmt :=
  match lookupLast fieldOf cn with
  | none => []
  | some defined_field =>
    match lookupLast fksBy (oldColName n2o cn) with
    | none =>
      if defined_field.fk_dest.isSome then [Stmt.fkAdd ntn cn] else []
    | some existing_fk =>
      if defined_field.fk_dest.isSome then []
      else [Stmt.fkDrop ntn existing_fk.name]

/-- Sequential effectful map aborting at the first error, the behaviour
of the source's statement-accumulating loop over `not_new_columns`. -/
def mapME {α β : Type} (f : α → Except String β) :
    List α → Except String (List β)
  | [] => .ok []
  | a :: l =>
    match f a with
    | .error e => .error e
    | .ok b =>
      match mapME f l with
      | .error e => .error e
      | .ok bs => .ok (b :: bs)

/-- `calc_column_changes`: the column-level diff of one surviving table.
Returns `(new_cols, delete_cols, rename_cols, alter_statements)`, the
alter statements being the metadata alters (in `not_new_columns` order)
followed by the foreign-key alters. `etn` is accepted but, as in the
source, unused in the body. -/
def calc_column_changes (_etn ntn : String) (ecols : List ColumnMetadata)
    (fields : List Field) (fks : List ForeignKeyMetadata) :
    Except String
      (List String × List String × List (String × String) × List Stmt) :=
  let st := colFold ntn ecols fields
  let n2o := renamesNewToOld ntn ecols fields
  let nn := notNewColumns ntn ecols fields
  match mapME
      (emitMeta (colDict (normExisting ecols))
        (colDict (definedColumns ntn fields)) n2o ntn) nn with
  | .error e => .error e
  | .ok ms =>
    .ok (st.new_cols, st.delete_cols, st.rename_cols,
      ms.flatten ++
        (nn.map (emitFk (fkDict fks) (fieldDict fields) n2o ntn)).flatten)

/-- The literal inert statement the source inserts when a NOT NULL
column is added without a declared default. -/
def warnText : String :=
  "-- adding a not null column without a default will fail if the table is not empty"

/-- The statements appended for one added column: the add-column
operation; then, when the field is NOT NULL, the default backfill if the
field has a (truthy) default or else the inert warning, followed by the
add-not-null operation (`alter_add_column` strips null constraints, so
the source re-adds them after setting any default). -/
def addColumnGroup (ntn cn : String) : Option Field → List Stmt
  | none => [Stmt.addColumn ntn cn]
  | some field =>
    [Stmt.addColumn ntn cn] ++
      (if field.null then []
       else
        (if field.default then [Stmt.applyDefault ntn cn]
         else [Stmt.comment warnText]) ++
          [Stmt.addNotNull ntn cn])

/-- The per-table middle section of the plan for one surviving existing
table `etn`: column adds, then column drops, then column renames, then
the remaining alter statements, exactly as `calc_changes` appends them. -/
def tableBlock (models : List Model)
    (table_renames : List (String × String))
    (getColumns : String → List ColumnMetadata)
    (fksOf : String → List ForeignKeyMetadata) (etn : String) :
    Except String (List Stmt) :=
  let ntn := (lookupLast table_renames etn).getD etn
  match lookupLast (modelByTable models) ntn with
  | none => .ok []
  | some model =>
    match calc_column_changes etn ntn (getColumns etn) model.fields
        (fksOf etn) with
    | .error e => .error e
    | .ok (adds, deletes, renames, alter_statements) =>
      .ok
        ((adds.map (fun cn =>
            addColumnGroup ntn cn
              (lookupLast (fieldDict model.fields) cn))).flatten ++
          deletes.map (fun cn => Stmt.dropColumn ntn cn) ++
          renames.map (fun p => Stmt.renameColumn ntn p.1 p.2) ++
          alter_statements)

/-- `calc_changes`: the whole plan. CREATE TABLE statements (in
dependency order) first, then table renames, then the per-table middle
sections for every existing table not being deleted, and the DROP TABLE
statements for deleted tables last. `getColumns` and `fksOf` stand for
the introspected `db.get_columns` and `get_foreign_keys_by_table`. -/
def calc_changes (models : List Model) (existing_tables : List String)
    (getColumns : String → List ColumnMetadata)
    (fksOf : String → List ForeignKeyMetadata) :
    Except String (List Stmt) :=
  match calc_table_changes models existing_tables with
  | .error e => .error e
  | .ok (table_adds, table_deletes, table_renames) =>
    match mapME (tableBlock models table_renames getColumns fksOf)
        (existing_tables.dedup.filter
          (fun t => !table_deletes.contains t)) with
    | .error e => .error e
    | .ok blocks =>
      .ok (table_adds.map Stmt.createTable ++
        table_renames.map (fun p => Stmt.renameTable p.1 p.2) ++
        blocks.flatten ++
        table_deletes.map Stmt.dropTable)

/-- Plain sequential execution of SQL statements against an abstract
database state, no comment skipping: the reference point for stating
which statements `_execute` actually runs. -/
def runAll {σ : Type} (step : String → List String → σ → Except String σ) :
    List (String × List String) → σ → Except String σ
  | [], s => .ok s
  | (sql, params) :: rest, s =>
    match step sql params s with
    | .ok s2 => runAll step rest s2
    | .error e => .error e

/-- The statement loop of `_execute`: run each `(sql, params)` pair in
order, skipping any whose stripped text starts with the `--` comment
marker; the first failure aborts and surfaces. The surrounding
`db.atomic()` transaction is modelled separately by `atomicExecute`. -/
def _execute {σ : Type} (step : String → List String → σ → Except String σ) :
    List (String × List String) → σ → Except String σ
  | [], s => .ok s
  | (sql, params) :: rest, s =>
    if isCommentLine sql then _execute step rest s
    else
      match step sql params s with
      | .ok s2 => _execute step rest s2
      | .error e => .error e

/-- Modelled from the spec: the `with db.atomic()` transaction wrapping
the statement loop. The transactional rollback itself is peewee/database
behaviour not under `src/`; per the spec, any statement failure rolls
back the entire batch, leaving the schema exactly as before the run, and
the failure surfaces to the caller. -/
def atomicExecute {σ : Type}
    (step : String → List String → σ → Except String σ)
    (to_run : List (String × List String)) (s : σ) : σ × Option String :=
  match _execute step to_run s with
  | .ok s2 => (s2, none)
  | .error e => (s, some e)

/-! Concrete schemas reused by witnesses. -/

/-- Witness model: table `a`, no foreign keys. -/
def wTblA : Model := ⟨"a", [], [⟨"x", "integer", true, false, none, [], false⟩]⟩

/-- Witness model: table `b` foreign-keying into `a`. -/
def wTblB : Model :=
  ⟨"b", [], [⟨"a_id", "integer", true, false, some "a", [], false⟩]⟩

/-- Witness model: table `c` foreign-keying into `d` (half of a cycle). -/
def wTblC : Model :=
  ⟨"c", [], [⟨"d_id", "integer", true, false, some "d", [], false⟩]⟩

/-- Witness model: table `d` foreign-keying into `c` (half of a cycle). -/
def wTblD : Model :=
  ⟨"d", [], [⟨"c_id", "integer", true, false, some "c", [], false⟩]⟩

/-- Concrete declared-column dict for the C10 witness. -/
def wColDfD : List (String × ColumnMetadata) :=
  colDict [⟨"c", "integer", true, false, "t"⟩]

/-- Concrete existing-column dict for the C10 witness. -/
def wColExD : List (String × ColumnMetadata) :=
  colDict [⟨"a", "integer", true, false, "t"⟩,
    ⟨"b", "integer", true, false, "t"⟩]

/-- Concrete field dict for the C10 witness: column `c` with two aliases. -/
def wColFieldOf : List (String × Field) :=
  fieldDict [⟨"c", "integer", true, false, none, ["a", "b"], false⟩]

/-- Concrete rename-loop state for the C10 witness. -/
def wColSt : ColState := ⟨["c"], ["a", "b"], []⟩

/-- Concrete statement semantics for the executor witnesses: a counter
incremented per executed statement; the statement `FAIL` fails. -/
def wStep : String → List String → Nat → Except String Nat :=
  fun sql _ n => if sql = "FAIL" then .error "boom" else .ok (n + 1)

/-- Witness model for C7: table `t` declaring an existing nullable
column `a` and a new NOT NULL column `b` without a default. -/
def wTblT : Model :=
  ⟨"t", [], [⟨"a", "integer", true, false, none, [], false⟩,
    ⟨"b", "integer", false, false, none, [], false⟩]⟩

/-- Introspected columns of the C7 witness database: only column `a`. -/
def wGetColsT : String → List ColumnMetadata :=
  fun _ => [⟨"a", "integer", true, false, "t"⟩]

/-- No foreign keys in the witness database. -/
def wNoFks : String → List ForeignKeyMetadata := fun _ => []

/-- Witness models and introspection for the C2 witness: the spec's own
example — existing table `users(id, name nullable)`, declared table
`people` aliased to `users` with a NOT NULL `name` and a new
`signup_ip`. -/
def wPeople : Model :=
  ⟨"people", ["users"],
    [⟨"id", "SERIAL", false, true, none, [], false⟩,
      ⟨"name", "VARCHAR(255)", false, false, none, [], false⟩,
      ⟨"signup_ip", "VARCHAR(32)", true, false, none, [], false⟩]⟩

/-- Witness model: a brand-new table `logs` with no aliases. -/
def wLogs : Model :=
  ⟨"logs", [], [⟨"id", "SERIAL", false, true, none, [], false⟩]⟩

/-- Introspected columns for the C2 witness. -/
def wUsersCols : String → List ColumnMetadata :=
  fun t => if t = "users" then
    [⟨"id", "integer", false, true, "users"⟩,
      ⟨"name", "character varying", true, false, "users"⟩]
  else []

/-- The statements of the alter list that concern one surviving column:
nullability and foreign-key-add statements naming the declared column
name, and constraint drops whose constraint belongs to the pre-rename
existing column. -/
def columnAlterTest (fks : List ForeignKeyMetadata)
    (oldName cName : String) : Stmt → Bool
  | .addNotNull _ x => x == cName
  | .dropNotNull _ x => x == cName
  | .fkAdd _ x => x == cName
  | .fkDrop _ n => fks.any (fun fk => fk.name == n && fk.column == oldName)
  | _ => false

/-- Filter a statement list down to the statements concerning one
surviving column. -/
def altersForColumn (fks : List ForeignKeyMetadata)
    (oldName cName : String) (l : List Stmt) : List Stmt :=
  l.filter (columnAlterTest fks oldName cName)

/-- The invariant of the table rename-resolution fold: both sets shrink
within their initial values, stay duplicate-free, and every recorded
rename has its target out of the add-set and its source out of the
delete-set. -/
def TInv (a0 d0 : List String) (st : TableState) : Prop :=
  st.adds ⊆ a0 ∧ st.deletes ⊆ d0 ∧ st.adds.Nodup ∧ st.deletes.Nodup ∧
    ∀ p ∈ st.renames, p.2 ∉ st.adds ∧ p.1 ∉ st.deletes

/-- The invariant of the column rename-resolution fold. -/
def CInv (n0 d0 : List String) (st : ColState) : Prop :=
  st.new_cols ⊆ n0 ∧ st.delete_cols ⊆ d0 ∧ st.new_cols.Nodup ∧
    st.delete_cols.Nodup ∧
    ∀ p ∈ st.rename_cols, p.2 ∉ st.new_cols ∧ p.1 ∉ st.delete_cols

/-- Invariant carried across the table rename loop before the table of
interest `m` is processed: `m`'s table is still in the add-set, none of
`m`'s aliases has been consumed from the delete-set, and no recorded
rename touches `m`'s aliases or targets `m`'s table. -/
def MInv (models : List Model) (existing : List String) (m : Model)
    (st : TableState) : Prop :=
  st.adds.Nodup ∧ st.deletes.Nodup ∧ m.db_table ∈ st.adds ∧
    st.deletes ⊆ tableDels0 models existing ∧
    (∀ x ∈ m.aka, x ∈ tableDels0 models existing → x ∈ st.deletes) ∧
    ∀ p ∈ st.renames, p.1 ∉ m.aka ∧ p.2 ≠ m.db_table

/-- Invariant carried after `m`'s rename has been recorded with source
alias `a`: the rename stays recorded and unique for the pair, and the
pair stays out of the add- and delete-sets. -/
def KInv (models : List Model) (existing : List String) (m : Model)
    (a : String) (st : TableState) : Prop :=
  lookupLast st.renames a = some m.db_table ∧
    (∀ p ∈ st.renames, p.2 = m.db_table → p = (a, m.db_table)) ∧
    m.db_table ∉ st.adds ∧ a ∉ st.deletes ∧
    st.deletes ⊆ tableDels0 models existing

/-! Helper lemmas about the dict and list primitives of the embedding. -/

theorem lookupLast_mem {α : Type} {l : List (String × α)} {k : String}
    {v : α} (h : lookupLast l k = some v) : (k, v) ∈ l := by
  induction l with
  | nil => simp [lookupLast] at h
  | cons p rest ih =>
    obtain ⟨p1, p2⟩ := p
    rw [lookupLast] at h
    rcases hrec : lookupLast rest k with _ | w
    · rw [hrec] at h
      simp only [] at h
      split at h
      · rename_i hk
        cases h
        subst hk
        exact List.mem_cons_self _ _
      · cases h
    · rw [hrec] at h
      cases h
      exact List.mem_cons_of_mem _ (ih hrec)

theorem lookupLast_eq_none_of_keys {α : Type} {l : List (String × α)}
    {k : String} (h : ∀ p ∈ l, p.1 ≠ k) : lookupLast l k = none := by
  induction l with
  | nil => rfl
  | cons p rest ih =>
    rw [lookupLast, ih (fun q hq => h q (List.mem_cons_of_mem _ hq))]
    simp only []
    rw [if_neg (h p (List.mem_cons_self p rest))]

theorem lookupLast_keyed {α : Type} {l : List α} {key : α → String}
    {a : α} (hN : (l.map key).Nodup) (ha : a ∈ l) :
    lookupLast (l.map (fun x => (key x, x))) (key a) = some a := by
  induction l with
  | nil => cases ha
  | cons b rest ih =>
    rw [List.map_cons, lookupLast]
    rcases List.mem_cons.mp ha with hab | ha2
    · subst hab
      have hout : key a ∉ rest.map key := by
        rw [List.map_cons] at hN
        exact (List.nodup_cons.mp hN).1
      have : lookupLast (rest.map (fun x => (key x, x))) (key a) = none := by
        apply lookupLast_eq_none_of_keys
        intro p hp
        rcases List.mem_map.mp hp with ⟨x, hx, rfl⟩
        intro hkey
        exact hout (hkey ▸ List.mem_map_of_mem key hx)
      rw [this]
      simp
    · have hNr : (rest.map key).Nodup := by
        rw [List.map_cons] at hN
        exact (List.nodup_cons.mp hN).2
      rw [ih hNr ha2]

theorem lookupLast_replace_self {α : Type} {k : String} {v : α} :
    ∀ d : List (String × α), (d.any fun p => p.1 == k) = true →
      lookupLast (d.map fun p => if p.1 = k then (k, v) else p) k = some v := by
  intro d
  induction d with
  | nil => intro h; cases h
  | cons q rest ih =>
    intro hany
    rw [List.map_cons, lookupLast]
    by_cases hrest : (rest.any fun p => p.1 == k) = true
    · rw [ih hrest]
    · have hq : q.1 = k := by
        rw [List.any_cons] at hany
        rcases Bool.or_eq_true_iff.mp hany with h1 | h1
        · exact beq_iff_eq.mp h1
        · exact absurd h1 hrest
      have hnone :
          lookupLast (rest.map fun p => if p.1 = k then (k, v) else p) k
            = none := by
        apply lookupLast_eq_none_of_keys
        intro p hp
        rcases List.mem_map.mp hp with ⟨q2, hq2, rfl⟩
        have hq2k : ¬ q2.1 = k := by
          intro hc
          exact hrest (List.any_eq_true.mpr ⟨q2, hq2, beq_iff_eq.mpr hc⟩)
        rw [if_neg hq2k]
        exact hq2k
      rw [hnone]
      simp only []
      rw [if_pos hq]
      simp

theorem lookupLast_append_single {α : Type} {k k2 : String} {v : α}
    (h : k2 ≠ k) :
    ∀ d : List (String × α),
      lookupLast (d ++ [(k, v)]) k2 = lookupLast d k2 := by
  intro d
  induction d with
  | nil =>
    simp only [List.nil_append, lookupLast]
    rw [if_neg (fun hc => h hc.symm)]
  | cons q rest ih =>
    rw [List.cons_append, lookupLast, lookupLast, ih]

theorem lookupLast_replace_ne {α : Type} {k k2 : String} {v : α}
    (h : k2 ≠ k) :
    ∀ d : List (String × α),
      lookupLast (d.map fun p => if p.1 = k then (k, v) else p) k2
        = lookupLast d k2 := by
  intro d
  induction d with
  | nil => rfl
  | cons q rest ih =>
    rw [List.map_cons, lookupLast, lookupLast, ih]
    rcases lookupLast rest k2 with _ | w
    · simp only []
      by_cases hq : q.1 = k
      · rw [if_pos hq]
        have h1 : ¬ (k : String) = k2 := fun hc => h hc.symm
        have h2 : ¬ q.1 = k2 := by rw [hq]; exact h1
        simp only []
        rw [if_neg h1, if_neg h2]
      · rw [if_neg hq]
    · rfl

theorem lookupLast_dictInsert_self {α : Type} {d : List (String × α)}
    (k : String) (v : α) : lookupLast (dictInsert k v d) k = some v := by
  rw [dictInsert]
  split
  · rename_i hany
    exact lookupLast_replace_self d hany
  · rename_i hany
    induction d with
    | nil =>
      simp [lookupLast]
    | cons q rest ih =>
      rw [List.cons_append, lookupLast, ih]
      intro hc
      exact hany (by rw [List.any_cons, hc]; simp)

theorem lookupLast_dictInsert_ne {α : Type} {d : List (String × α)}
    {k k2 : String} (v : α) (h : k2 ≠ k) :
    lookupLast (dictInsert k v d) k2 = lookupLast d k2 := by
  rw [dictInsert]
  split
  · exact lookupLast_replace_ne h d
  · exact lookupLast_append_single h d

theorem mem_dictInsert {α : Type} {d : List (String × α)} {k : String}
    {v : α} {p : String × α} (h : p ∈ dictInsert k v d) :
    p = (k, v) ∨ p ∈ d := by
  rw [dictInsert] at h
  split at h
  · rcases List.mem_map.mp h with ⟨q, hq, hpq⟩
    split at hpq
    · exact Or.inl hpq.symm
    · exact Or.inr (hpq ▸ hq)
  · rcases List.mem_append.mp h with h2 | h2
    · exact Or.inr h2
    · exact Or.inl (by simpa using h2)

theorem mapME_ok_mem {α β : Type} {f : α → Except String β} {l : List α}
    {bs : List β} (h : mapME f l = .ok bs) :
    ∀ a ∈ l, ∃ b, f a = .ok b := by
  induction l generalizing bs with
  | nil => intro a ha; cases ha
  | cons x rest ih =>
    intro a ha
    rw [mapME] at h
    rcases hx : f x with e | b <;> rw [hx] at h
    · cases h
    · rcases hrest : mapME f rest with e | bs2 <;> rw [hrest] at h
      · cases h
      · rcases List.mem_cons.mp ha with rfl | ha2
        · exact ⟨b, hx⟩
        · exact ih hrest a ha2

theorem mapME_ok_mem_out {α β : Type} {f : α → Except String β}
    {l : List α} {bs : List β} (h : mapME f l = .ok bs) :
    ∀ b ∈ bs, ∃ a ∈ l, f a = .ok b := by
  induction l generalizing bs with
  | nil =>
    rw [mapME] at h
    cases h
    intro b hb
    cases hb
  | cons x rest ih =>
    intro b hb
    rw [mapME] at h
    rcases hx : f x with e | b2 <;> rw [hx] at h
    · cases h
    · rcases hrest : mapME f rest with e | bs2 <;> rw [hrest] at h
      · cases h
      · cases h
        rcases List.mem_cons.mp hb with rfl | hb2
        · exact ⟨x, List.mem_cons_self x rest, hx⟩
        · rcases ih hrest b hb2 with ⟨a, ha, hfa⟩
          exact ⟨a, List.mem_cons_of_mem _ ha, hfa⟩

theorem mapME_error_first {α β : Type} {f : α → Except String β}
    {l1 l2 : List α} {c : α} {e : String}
    (hprev : ∀ a ∈ l1, ∃ b, f a = .ok b) (hc : f c = .error e) :
    mapME f (l1 ++ c :: l2) = .error e := by
  induction l1 with
  | nil =>
    rw [List.nil_append, mapME, hc]
  | cons x rest ih =>
    rw [List.cons_append, mapME]
    rcases hprev x (List.mem_cons_self x rest) with ⟨b, hb⟩
    rw [hb, ih (fun a ha => hprev a (List.mem_cons_of_mem _ ha))]

theorem mapME_mem_of_ok {α β : Type} {f : α → Except String β}
    {l : List α} {bs : List β} {a : α} {b : β} (h : mapME f l = .ok bs)
    (ha : a ∈ l) (hfa : f a = .ok b) : b ∈ bs := by
  induction l generalizing bs with
  | nil => cases ha
  | cons x rest ih =>
    rw [mapME] at h
    rcases hx : f x with e | b2 <;> rw [hx] at h
    · cases h
    · rcases hrest : mapME f rest with e | bs2 <;> rw [hrest] at h
      · cases h
      · cases h
        rcases List.mem_cons.mp ha with rfl | ha2
        · rw [hfa] at hx
          cases hx
          exact List.mem_cons_self _ _
        · exact List.mem_cons_of_mem _ (ih hrest ha2)

theorem find?_congr {α : Type} {p q : α → Bool} :
    ∀ l : List α, (∀ x ∈ l, p x = q x) → l.find? p = l.find? q := by
  intro l
  induction l with
  | nil => intro _; rfl
  | cons a rest ih =>
    intro h
    have ha := h a (List.mem_cons_self a rest)
    by_cases hp : p a = true
    · rw [List.find?_cons_of_pos rest hp,
        List.find?_cons_of_pos rest (ha ▸ hp)]
    · rw [List.find?_cons_of_neg rest (by simpa using hp),
        List.find?_cons_of_neg rest (by rw [← ha]; simpa using hp),
        ih (fun x hx => h x (List.mem_cons_of_mem _ hx))]

theorem lookupLast_modelByTable {models : List Model} {k : String}
    {m : Model} (h : lookupLast (modelByTable models) k = some m) :
    m ∈ models ∧ m.db_table = k := by
  have := lookupLast_mem h
  rcases List.mem_map.mp this with ⟨m2, hm2, heq⟩
  cases heq
  exact ⟨hm2, rfl⟩

theorem lookupLast_colDict {cols : List ColumnMetadata} {k : String}
    {c : ColumnMetadata} (h : lookupLast (colDict cols) k = some c) :
    c ∈ cols ∧ c.name = k := by
  have := lookupLast_mem h
  rcases List.mem_map.mp this with ⟨c2, hc2, heq⟩
  cases heq
  exact ⟨hc2, rfl⟩

theorem lookupLast_fkDict {fks : List ForeignKeyMetadata} {k : String}
    {fk : ForeignKeyMetadata} (h : lookupLast (fkDict fks) k = some fk) :
    fk ∈ fks ∧ fk.column = k := by
  have := lookupLast_mem h
  rcases List.mem_map.mp this with ⟨f2, hf2, heq⟩
  cases heq
  exact ⟨hf2, rfl⟩

theorem lookupLast_fieldDict {fields : List Field} {k : String}
    {f : Field} (h : lookupLast (fieldDict fields) k = some f) :
    f ∈ fields ∧ f.db_column = k := by
  have := lookupLast_mem h
  rcases List.mem_map.mp this with ⟨f2, hf2, heq⟩
  cases heq
  exact ⟨hf2, rfl⟩

/-! Shape lemmas for the per-column emission functions. -/

theorem emitMeta_ok_shape {exD dfD : List (String × ColumnMetadata)}
    {n2o : List (String × String)} {ntn cn : String} {out : List Stmt}
    (h : emitMeta exD dfD n2o ntn cn = .ok out) :
    out = [] ∨
      (∃ dc, lookupLast dfD cn = some dc ∧
        (out = [Stmt.addNotNull ntn dc.name] ∨
          out = [Stmt.dropNotNull ntn dc.name])) := by
  rw [emitMeta] at h
  split at h
  · rename_i ec dc hex hdf
    split at h
    · rcases hn1 : (ec.null && !dc.null) with _ | _ <;>
        rcases hn2 : (!ec.null && dc.null) with _ | _ <;>
        simp only [hn1, hn2, if_true, if_false, List.nil_append,
          List.append_nil, List.isEmpty_nil, List.isEmpty_cons,
          Bool.false_eq_true, if_neg, if_pos] at h
      · exact Except.noConfusion h
      · cases h
        exact Or.inr ⟨dc, hdf, Or.inr rfl⟩
      · cases h
        exact Or.inr ⟨dc, hdf, Or.inl rfl⟩
      · exfalso
        rcases hec2 : ec.null with _ | _
        · rw [hec2] at hn1
          simp at hn1
        · rw [hec2] at hn2
          simp at hn2
    · cases h
      exact Or.inl rfl
  · cases h
    exact Or.inl rfl

theorem emitFk_cases (fksBy : List (String × ForeignKeyMetadata))
    (fieldOf : List (String × Field)) (n2o : List (String × String))
    (ntn cn : String) :
    emitFk fksBy fieldOf n2o ntn cn = [] ∨
      emitFk fksBy fieldOf n2o ntn cn = [Stmt.fkAdd ntn cn] ∨
      ∃ fk, lookupLast fksBy (oldColName n2o cn) = some fk ∧
        emitFk fksBy fieldOf n2o ntn cn = [Stmt.fkDrop ntn fk.name] := by
  rw [emitFk]
  split
  · exact Or.inl rfl
  · split
    · split
      · exact Or.inr (Or.inl rfl)
      · exact Or.inl rfl
    · rename_i fk hfk
      split
      · exact Or.inl rfl
      · exact Or.inr (Or.inr ⟨fk, hfk, rfl⟩)

theorem addColumnGroup_shape (ntn cn : String) (of : Option Field) :
    addColumnGroup ntn cn of = [Stmt.addColumn ntn cn] ∨
      addColumnGroup ntn cn of =
        [Stmt.addColumn ntn cn, Stmt.applyDefault ntn cn,
          Stmt.addNotNull ntn cn] ∨
      addColumnGroup ntn cn of =
        [Stmt.addColumn ntn cn, Stmt.comment warnText,
          Stmt.addNotNull ntn cn] := by
  rcases of with _ | f
  · exact Or.inl rfl
  · rw [addColumnGroup]
    by_cases hn : f.null
    · rw [if_pos hn]
      exact Or.inl rfl
    · rw [if_neg hn]
      by_cases hd : f.default
      · rw [if_pos hd]
        exact Or.inr (Or.inl rfl)
      · rw [if_neg hd]
        exact Or.inr (Or.inr rfl)

/-! Lemmas about the spec-modelled topological sort. -/

theorem topoSortGo_perm {deps : String → List String} :
    ∀ (n : Nat) (remaining acc out : List String),
      topoSortGo deps n remaining acc = .ok out →
      out.Perm (remaining ++ acc) := by
  intro n
  induction n with
  | zero =>
    intro remaining acc out h
    cases remaining with
    | nil =>
      simp only [topoSortGo] at h
      cases h
      simpa using List.reverse_perm acc
    | cons x xs =>
      simp only [topoSortGo] at h
      exact Except.noConfusion h
  | succ n ih =>
    intro remaining acc out h
    cases remaining with
    | nil =>
      simp only [topoSortGo] at h
      cases h
      simpa using List.reverse_perm acc
    | cons x xs =>
      simp only [topoSortGo] at h
      split at h
      · rename_i t hfind
        have ht : t ∈ x :: xs := List.mem_of_find?_eq_some hfind
        have hperm := ih _ _ _ h
        refine hperm.trans ?_
        have h1 :
            ((x :: xs).erase t ++ t :: acc).Perm
              (t :: ((x :: xs).erase t ++ acc)) := List.perm_middle
        refine h1.trans ?_
        have h2 : (t :: (x :: xs).erase t).Perm (x :: xs) :=
          (List.perm_cons_erase ht).symm
        have h3 :
            (t :: ((x :: xs).erase t ++ acc)) =
              (t :: (x :: xs).erase t) ++ acc := rfl
        rw [h3]
        exact h2.append_right acc
      · cases h

theorem topoSortGo_sound {deps : String → List String} :
    ∀ (n : Nat) (remaining acc out : List String),
      topoSortGo deps n remaining acc = .ok out →
      ∃ mid, out = acc.reverse ++ mid ∧
        ∀ l1 t l2, mid = l1 ++ t :: l2 →
          ∀ d ∈ deps t, d ∈ remaining → d ∈ l1 := by
  intro n
  induction n with
  | zero =>
    intro remaining acc out h
    cases remaining with
    | nil =>
      simp only [topoSortGo] at h
      cases h
      refine ⟨[], by simp, ?_⟩
      intro l1 t l2 hdec
      exfalso
      cases l1 <;> simp at hdec
    | cons x xs =>
      simp only [topoSortGo] at h
      exact Except.noConfusion h
  | succ n ih =>
    intro remaining acc out h
    cases remaining with
    | nil =>
      simp only [topoSortGo] at h
      cases h
      refine ⟨[], by simp, ?_⟩
      intro l1 t l2 hdec
      exfalso
      cases l1 <;> simp at hdec
    | cons x xs =>
      simp only [topoSortGo] at h
      split at h
      · rename_i t0 hfind
        rcases ih _ _ _ h with ⟨mid2, hout, hord⟩
        refine ⟨t0 :: mid2, ?_, ?_⟩
        · rw [hout, List.reverse_cons, List.append_assoc]
          rfl
        · intro l1 t l2 hdec d hd hdrem
          cases l1 with
          | nil =>
            rw [List.nil_append] at hdec
            injection hdec with h1 h2
            subst h1
            have hall := List.find?_some hfind
            have hnc := List.all_eq_true.mp hall d hd
            have hnc2 : d ∉ (x :: xs) := by simpa using hnc
            exact absurd hdrem hnc2
          | cons hd1 tl1 =>
            rw [List.cons_append] at hdec
            injection hdec with h1 h2
            subst h1
            by_cases hdt : d = t0
            · exact hdt ▸ List.mem_cons_self _ _
            · have hde : d ∈ (x :: xs).erase t0 :=
                (List.mem_erase_of_ne hdt).mpr hdrem
              exact List.mem_cons_of_mem _ (hord tl1 t l2 h2 d hd hde)
      · cases h

theorem topoSortGo_cycle {deps : String → List String} {S : List String}
    (hS : S ≠ []) (hdep : ∀ t ∈ S, ∃ d ∈ deps t, d ∈ S) :
    ∀ (n : Nat) (remaining acc : List String), (∀ t ∈ S, t ∈ remaining) →
      ∃ e, topoSortGo deps n remaining acc = .error e := by
  intro n
  induction n with
  | zero =>
    intro remaining acc hsub
    cases remaining with
    | nil =>
      cases S with
      | nil => exact absurd rfl hS
      | cons s ss =>
        exact absurd (hsub s (List.mem_cons_self s ss)) (List.not_mem_nil s)
    | cons x xs =>
      refine ⟨"foreign-key dependency cycle", ?_⟩
      simp only [topoSortGo]
  | succ n ih =>
    intro remaining acc hsub
    cases remaining with
    | nil =>
      cases S with
      | nil => exact absurd rfl hS
      | cons s ss =>
        exact absurd (hsub s (List.mem_cons_self s ss)) (List.not_mem_nil s)
    | cons x xs =>
      simp only [topoSortGo]
      rcases hfind :
          (x :: xs).find?
            (fun t => (deps t).all fun d => !(x :: xs).contains d) with _ | t0
      · simp only [hfind]
        exact ⟨_, rfl⟩
      · simp only [hfind]
        have ht0 : t0 ∉ S := by
          intro hmem
          rcases hdep t0 hmem with ⟨d, hd, hdS⟩
          have hall := List.find?_some hfind
          have hnc := List.all_eq_true.mp hall d hd
          have hnc2 : d ∉ (x :: xs) := by simpa using hnc
          exact hnc2 (hsub d hdS)
        exact ih _ _
          (fun t ht =>
            (List.mem_erase_of_ne
              (fun hc => ht0 (by rw [← hc]; exact ht))).mpr (hsub t ht))

/-- C4: for every set of tables to add with foreign-key references among
them, the returned add list is topologically ordered over the
foreign-key dependency graph — each table appears after every table it
foreign-keys into that is also being added in the same run — and a
dependency cycle causes a loud failure (an error, never a silently
misordered list). -/
theorem sort_by_fk_deps_topological (models : List Model)
    (table_names : List String) :
    (∀ out, sort_by_fk_deps models table_names = .ok out →
      out.Perm table_names ∧
      ∀ l1 t l2, out = l1 ++ t :: l2 →
        ∀ d ∈ modelDeps models t, d ∈ table_names → d ∈ l1) ∧
    (∀ S : List String, S ≠ [] → (∀ t ∈ S, t ∈ table_names) →
      (∀ t ∈ S, ∃ d ∈ modelDeps models t, d ∈ S) →
      ∃ e, sort_by_fk_deps models table_names = .error e) := by
  constructor
  · intro out h
    rw [sort_by_fk_deps, topoSort] at h
    constructor
    · simpa using topoSortGo_perm _ _ _ _ h
    · rcases topoSortGo_sound _ _ _ _ h with ⟨mid, hout, hord⟩
      rw [List.reverse_nil, List.nil_append] at hout
      subst hout
      exact hord
  · intro S hS hsub hdep
    rw [sort_by_fk_deps, topoSort]
    exact topoSortGo_cycle hS hdep _ _ _ hsub

/-- Witness for C4: on the two-table schema `a`, `b` (with `b`
foreign-keying into `a`) the sort puts `a` before `b`, and on the cyclic
schema `c`, `d` it errors. -/
theorem sort_by_fk_deps_topological_witness :
    (["a", "b"] : List String).Perm ["b", "a"] ∧
      (∃ e, sort_by_fk_deps [wTblC, wTblD] ["c", "d"] = .error e) :=
  ⟨((sort_by_fk_deps_topological [wTblA, wTblB] ["b", "a"]).1
      ["a", "b"] rfl).1,
    (sort_by_fk_deps_topological [wTblC, wTblD] ["c", "d"]).2
      ["c", "d"] (by decide) (by decide) (by decide)⟩

/-! Lemmas about the column alias loop (claim C10 and the fold
invariants). -/

theorem colRenameAka_rename_kept {exD : List (String × ColumnMetadata)}
    {sc : ColumnMetadata} {cn : String} {st : ColState} {aka key : String}
    (h : lookupLast st.rename_cols key = some sc.name) :
    lookupLast (colRenameAka exD sc cn st aka).rename_cols key
      = some sc.name := by
  rw [colRenameAka]
  split
  · split
    · split
      · rename_i ec _ _
        by_cases hk : key = ec.name
        · subst hk
          exact lookupLast_dictInsert_self _ _
        · rw [lookupLast_dictInsert_ne _ hk]
          exact h
      · exact h
    · exact h
  · exact h

theorem colRenameAka_delete_not_mem {exD : List (String × ColumnMetadata)}
    {sc : ColumnMetadata} {cn : String} {st : ColState} {aka a : String}
    (h : a ∉ st.delete_cols) :
    a ∉ (colRenameAka exD sc cn st aka).delete_cols := by
  rw [colRenameAka]
  split
  · split
    · split
      · exact fun hc => h (List.mem_of_mem_erase hc)
      · exact h
    · exact h
  · exact h

theorem colRenameAka_delete_nodup {exD : List (String × ColumnMetadata)}
    {sc : ColumnMetadata} {cn : String} {st : ColState} {aka : String}
    (h : st.delete_cols.Nodup) :
    (colRenameAka exD sc cn st aka).delete_cols.Nodup := by
  rw [colRenameAka]
  split
  · split
    · split
      · exact h.erase _
      · exact h
    · exact h
  · exact h

theorem colRenameAkaFold_rename_kept {exD : List (String × ColumnMetadata)}
    {sc : ColumnMetadata} {cn key : String} :
    ∀ (l : List String) (st : ColState),
      lookupLast st.rename_cols key = some sc.name →
      lookupLast ((l.foldl (colRenameAka exD sc cn) st).rename_cols) key
        = some sc.name := by
  intro l
  induction l with
  | nil => intro st h; exact h
  | cons b rest ih =>
    intro st h
    exact ih _ (colRenameAka_rename_kept h)

theorem colRenameAkaFold_delete_not_mem
    {exD : List (String × ColumnMetadata)} {sc : ColumnMetadata}
    {cn a : String} :
    ∀ (l : List String) (st : ColState), a ∉ st.delete_cols →
      a ∉ (l.foldl (colRenameAka exD sc cn) st).delete_cols := by
  intro l
  induction l with
  | nil => intro st h; exact h
  | cons b rest ih =>
    intro st h
    exact ih _ (colRenameAka_delete_not_mem h)

theorem colRenameAkaFold_records {exD : List (String × ColumnMetadata)}
    {sc ec : ColumnMetadata} {cn a : String}
    (hex : lookupLast exD a = some ec) :
    ∀ (l : List String) (st : ColState), a ∈ l → a ∈ st.delete_cols →
      st.delete_cols.Nodup →
      lookupLast ((l.foldl (colRenameAka exD sc cn) st).rename_cols) ec.name
          = some sc.name ∧
        a ∉ (l.foldl (colRenameAka exD sc cn) st).delete_cols := by
  intro l
  induction l with
  | nil => intro st hmem; cases hmem
  | cons b rest ih =>
    intro st hmem hdel hnd
    by_cases hba : b = a
    · subst hba
      have hstep : colRenameAka exD sc cn st b =
          { new_cols := st.new_cols.erase cn
            delete_cols := st.delete_cols.erase b
            rename_cols := dictInsert ec.name sc.name st.rename_cols } := by
        rw [colRenameAka, if_pos hdel, hex]
        rfl
      rw [List.foldl_cons, hstep]
      constructor
      · exact colRenameAkaFold_rename_kept rest _
          (lookupLast_dictInsert_self _ _)
      · exact colRenameAkaFold_delete_not_mem rest _
          (fun hc => ((hnd.mem_erase_iff).mp hc).1 rfl)
    · rw [List.foldl_cons]
      refine ih _ ?_ ?_ ?_
      · rcases List.mem_cons.mp hmem with h1 | h1
        · exact absurd h1.symm hba
        · exact h1
      · rw [colRenameAka]
        split
        · split
          · split
            · exact (List.mem_erase_of_ne (fun hc => hba hc.symm)).mpr hdel
            · exact hdel
          · exact hdel
        · exact hdel
      · exact colRenameAka_delete_nodup hnd

/-- C10: the column-level alias loop does not stop at the first match —
for a declared column, every alias of its field found in the current
delete-set is recorded as a rename source mapping that existing column
to the declared column's name and is removed from the delete-set — and
`can_convert` returns true for every pair of types, so no rename
candidate is ever rejected on type grounds. -/
theorem colRenameStep_matches_every_alias :
    (∀ t1 t2, can_convert t1 t2 = true) ∧
    ∀ (dfD exD : List (String × ColumnMetadata))
      (fieldOf : List (String × Field)) (cn : String) (f : Field)
      (sc ec : ColumnMetadata) (st : ColState) (a : String),
      lookupLast fieldOf cn = some f →
      lookupLast dfD cn = some sc →
      a ∈ f.akas → a ∈ st.delete_cols → st.delete_cols.Nodup →
      lookupLast exD a = some ec →
      lookupLast (colRenameStep dfD exD fieldOf cn st).rename_cols ec.name
          = some sc.name ∧
        a ∉ (colRenameStep dfD exD fieldOf cn st).delete_cols := by
  refine ⟨fun t1 t2 => rfl, ?_⟩
  intro dfD exD fieldOf cn f sc ec st a hf hsc ha hdel hnd hex
  rw [colRenameStep, hf, hsc]
  exact colRenameAkaFold_records hex f.akas st ha hdel hnd

/-- Witness for C10: with two aliases `a`, `b` both in the delete-set,
processing the declared column `c` records two renames (`a → c` and
`b → c`) and removes both aliases from the delete-set. -/
theorem colRenameStep_matches_every_alias_witness :
    (can_convert "varchar" "integer" = true) ∧
    (lookupLast
        (colRenameStep wColDfD wColExD wColFieldOf "c" wColSt).rename_cols
        "a" = some "c") ∧
    (lookupLast
        (colRenameStep wColDfD wColExD wColFieldOf "c" wColSt).rename_cols
        "b" = some "c") ∧
    ("b" : String) ∉
      (colRenameStep wColDfD wColExD wColFieldOf "c" wColSt).delete_cols :=
  ⟨colRenameStep_matches_every_alias.1 "varchar" "integer",
    (colRenameStep_matches_every_alias.2 wColDfD wColExD wColFieldOf "c"
      ⟨"c", "integer", true, false, none, ["a", "b"], false⟩
      ⟨"c", "integer", true, false, "t"⟩ ⟨"a", "integer", true, false, "t"⟩
      wColSt "a" (by decide) (by decide) (by decide) (by decide)
      (by decide) (by decide)).1,
    (colRenameStep_matches_every_alias.2 wColDfD wColExD wColFieldOf "c"
      ⟨"c", "integer", true, false, none, ["a", "b"], false⟩
      ⟨"c", "integer", true, false, "t"⟩ ⟨"b", "integer", true, false, "t"⟩
      wColSt "b" (by decide) (by decide) (by decide) (by decide)
      (by decide) (by decide)).1,
    (colRenameStep_matches_every_alias.2 wColDfD wColExD wColFieldOf "c"
      ⟨"c", "integer", true, false, none, ["a", "b"], false⟩
      ⟨"c", "integer", true, false, "t"⟩ ⟨"b", "integer", true, false, "t"⟩
      wColSt "b" (by decide) (by decide) (by decide) (by decide)
      (by decide) (by decide)).2⟩

/-! Claim C1: the unsupported-column-change error. -/

/-- Counterexample to C1 as stated: a canonical-type change
(`varchar` to `integer`) combined with a nullability change
(nullable to not-null) does not raise — `calc_column_changes` returns a
plan containing only the add-not-null alter, silently dropping the type
change. -/
theorem calc_column_changes_combined_change_counterexample :
    calc_column_changes "t" "t" [⟨"a", "varchar", true, false, "t"⟩]
      [⟨"a", "integer", false, false, none, [], false⟩] [] =
    .ok ([], [], [], [Stmt.addNotNull "t" "a"]) := by
  rfl

/-- C1 (amended): for every pair of an existing and a declared column
(same post-rename name) whose definitions differ while nullability is
unchanged — a canonical-type or primary-key-flag change — the
column-level diff raises the error naming both column definitions, so no
plan is produced for that table. (When such a change is combined with a
nullability change, the code instead emits only the nullability alter
without error; see the counterexample.) The column `c` is the first
offending one: every earlier surviving column yields a supported
(non-error) result. -/
theorem calc_column_changes_unsupported_raises
    (etn ntn : String) (ecols : List ColumnMetadata) (fields : List Field)
    (fks : List ForeignKeyMetadata) (c : String) (ec dc : ColumnMetadata)
    (l1 l2 : List String)
    (hsplit : notNewColumns ntn ecols fields = l1 ++ c :: l2)
    (hprev : ∀ c2 ∈ l1, ∃ out,
      emitMeta (colDict (normExisting ecols))
        (colDict (definedColumns ntn fields))
        (renamesNewToOld ntn ecols fields) ntn c2 = .ok out)
    (hec : lookupLast (colDict (normExisting ecols))
      (oldColName (renamesNewToOld ntn ecols fields) c) = some ec)
    (hdc : lookupLast (colDict (definedColumns ntn fields)) c = some dc)
    (hch : column_def_changed ec dc = true)
    (hnull : ec.null = dc.null) :
    calc_column_changes etn ntn ecols fields fks =
      .error (unsupportedMsg ec dc) := by
  have h1 : (ec.null && !dc.null) = false := by
    rw [hnull]
    cases dc.null <;> rfl
  have h2 : ((!ec.null) && dc.null) = false := by
    rw [hnull]
    cases dc.null <;> rfl
  have hce : emitMeta (colDict (normExisting ecols))
      (colDict (definedColumns ntn fields))
      (renamesNewToOld ntn ecols fields) ntn c =
      .error (unsupportedMsg ec dc) := by
    rw [emitMeta]
    simp only [hec, hdc, hch, h1, h2]
    rfl
  have hM : mapME
      (emitMeta (colDict (normExisting ecols))
        (colDict (definedColumns ntn fields))
        (renamesNewToOld ntn ecols fields) ntn)
      (notNewColumns ntn ecols fields) = .error (unsupportedMsg ec dc) := by
    rw [hsplit]
    exact mapME_error_first hprev hce
  rw [calc_column_changes]
  simp only [hM]

/-- Witness for the amended C1: a pure `varchar` to `integer` type change
with nullability unchanged raises the error naming both definitions. -/
theorem calc_column_changes_unsupported_raises_witness :
    calc_column_changes "t" "t" [⟨"a", "varchar", false, false, "t"⟩]
      [⟨"a", "integer", false, false, none, [], false⟩] [] =
    .error (unsupportedMsg ⟨"a", "varchar", false, false, "t"⟩
      ⟨"a", "integer", false, false, "t"⟩) :=
  calc_column_changes_unsupported_raises "t" "t"
    [⟨"a", "varchar", false, false, "t"⟩]
    [⟨"a", "integer", false, false, none, [], false⟩] [] "a"
    ⟨"a", "varchar", false, false, "t"⟩ ⟨"a", "integer", false, false, "t"⟩
    [] [] (by decide) (fun c2 hc => absurd hc (List.not_mem_nil c2))
    (by decide) (by decide) (by decide) rfl

/-! The plan executor. -/

theorem execute_eq_runAll_filter {σ : Type}
    (step : String → List String → σ → Except String σ) :
    ∀ (l : List (String × List String)) (s : σ),
      _execute step l s =
        runAll step (l.filter (fun q => !isCommentLine q.1)) s := by
  intro l
  induction l with
  | nil => intro s; rfl
  | cons q rest ih =>
    intro s
    obtain ⟨sql, params⟩ := q
    rw [_execute, List.filter_cons]
    by_cases hc : isCommentLine sql
    · rw [if_pos hc]
      have hb : (!isCommentLine (sql, params).1) = false := by
        simp [hc]
      rw [hb]
      simp only [Bool.false_eq_true, if_false]
      exact ih s
    · rw [if_neg hc]
      have hb : (!isCommentLine (sql, params).1) = true := by
        simp [hc]
      rw [hb]
      simp only [if_true]
      rw [runAll]
      rcases step sql params s with e | s2
      · rfl
      · exact ih s2

/-- C8: the executor model. If the statement loop succeeds, the
transaction commits the final state; if any statement fails, the
transaction leaves the state exactly as it was before the run and the
failure is surfaced to the caller — no partial migration is ever
committed. -/
theorem atomicExecute_all_or_nothing {σ : Type}
    (step : String → List String → σ → Except String σ)
    (to_run : List (String × List String)) (s : σ) :
    (∀ s2, _execute step to_run s = .ok s2 →
      atomicExecute step to_run s = (s2, none)) ∧
    (∀ e, _execute step to_run s = .error e →
      atomicExecute step to_run s = (s, some e)) := by
  constructor <;> intro x h <;> rw [atomicExecute, h]

/-- Witness for C8: a failing statement in the middle of a batch leaves
the state at its initial value `0` and surfaces the error. -/
theorem atomicExecute_all_or_nothing_witness :
    atomicExecute wStep [("x", []), ("FAIL", []), ("y", [])] 0 =
      (0, some "boom") :=
  (atomicExecute_all_or_nothing wStep [("x", []), ("FAIL", []), ("y", [])]
    0).2 "boom" rfl

/-! Decomposition lemmas for the plan assembly. -/

theorem calc_changes_ok_decomp {models : List Model}
    {existing : List String} {getColumns : String → List ColumnMetadata}
    {fksOf : String → List ForeignKeyMetadata} {plan : List Stmt}
    (h : calc_changes models existing getColumns fksOf = .ok plan) :
    ∃ ta td tr blocks,
      calc_table_changes models existing = .ok (ta, td, tr) ∧
      mapME (tableBlock models tr getColumns fksOf)
        (existing.dedup.filter (fun t => !td.contains t)) = .ok blocks ∧
      plan = ta.map Stmt.createTable ++
        tr.map (fun p => Stmt.renameTable p.1 p.2) ++
        blocks.flatten ++ td.map Stmt.dropTable := by
  rw [calc_changes] at h
  split at h
  · cases h
  · rename_i ta td tr hct
    split at h
    · cases h
    · rename_i blocks hbl
      cases h
      exact ⟨ta, td, tr, blocks, hct, hbl, rfl⟩

theorem tableBlock_ok_decomp {models : List Model}
    {tr : List (String × String)}
    {getColumns : String → List ColumnMetadata}
    {fksOf : String → List ForeignKeyMetadata} {etn : String}
    {b : List Stmt}
    (h : tableBlock models tr getColumns fksOf etn = .ok b) :
    (b = [] ∧
      lookupLast (modelByTable models) ((lookupLast tr etn).getD etn)
        = none) ∨
    ∃ model adds dels rens alters,
      lookupLast (modelByTable models) ((lookupLast tr etn).getD etn)
          = some model ∧
      calc_column_changes etn ((lookupLast tr etn).getD etn)
        (getColumns etn) model.fields (fksOf etn)
          = .ok (adds, dels, rens, alters) ∧
      b = (adds.map (fun cn =>
          addColumnGroup ((lookupLast tr etn).getD etn) cn
            (lookupLast (fieldDict model.fields) cn))).flatten ++
        dels.map (fun cn =>
          Stmt.dropColumn ((lookupLast tr etn).getD etn) cn) ++
        rens.map (fun p =>
          Stmt.renameColumn ((lookupLast tr etn).getD etn) p.1 p.2) ++
        alters := by
  rw [tableBlock] at h
  split at h
  · rename_i hnone
    cases h
    exact Or.inl ⟨rfl, hnone⟩
  · rename_i model hmod
    split at h
    · cases h
    · rename_i adds dels rens alters hcc
      cases h
      exact Or.inr ⟨model, adds, dels, rens, alters, hmod, hcc, rfl⟩

theorem calc_column_changes_ok_decomp {etn ntn : String}
    {ecols : List ColumnMetadata} {fields : List Field}
    {fks : List ForeignKeyMetadata} {adds dels : List String}
    {rens : List (String × String)} {alters : List Stmt}
    (h : calc_column_changes etn ntn ecols fields fks
      = .ok (adds, dels, rens, alters)) :
    ∃ ms,
      mapME (emitMeta (colDict (normExisting ecols))
          (colDict (definedColumns ntn fields))
          (renamesNewToOld ntn ecols fields) ntn)
        (notNewColumns ntn ecols fields) = .ok ms ∧
      adds = (colFold ntn ecols fields).new_cols ∧
      dels = (colFold ntn ecols fields).delete_cols ∧
      rens = (colFold ntn ecols fields).rename_cols ∧
      alters = ms.flatten ++
        ((notNewColumns ntn ecols fields).map
          (emitFk (fkDict fks) (fieldDict fields)
            (renamesNewToOld ntn ecols fields) ntn)).flatten := by
  rw [calc_column_changes] at h
  split at h
  · cases h
  · rename_i ms hms
    cases h
    exact ⟨ms, hms, rfl, rfl, rfl, rfl⟩

/-! Infix helpers for locating a statement group inside the plan. -/

theorem infix_flatten_of_mem {α : Type} {b : List α} {L : List (List α)}
    (h : b ∈ L) : b <:+: L.flatten := by
  induction L with
  | nil => cases h
  | cons hd tl ih =>
    rcases List.mem_cons.mp h with rfl | h2
    · exact ⟨[], tl.flatten, by simp⟩
    · rcases ih h2 with ⟨s, t, hst⟩
      exact ⟨hd ++ s, t, by rw [List.flatten_cons, ← hst]; simp⟩

theorem infix_extend {α : Type} {l m : List α} (x y : List α)
    (h : l <:+: m) : l <:+: x ++ m ++ y := by
  rcases h with ⟨s, t, hst⟩
  exact ⟨x ++ s, t ++ y, by rw [← hst]; simp⟩

/-! Claim C7: the inert NOT NULL warning and comment skipping. -/

/-- C7: when a NOT NULL column with no declared default is added, the
plan contains the inert warning comment placed between the add-column
and the add-not-null statement (plan generation is not blocked), the
warning text begins with the `--` comment marker, and the plan executor
runs exactly the statements whose stripped text does not start with the
marker — every comment statement is skipped rather than executed. -/
theorem calc_changes_warns_and_execute_skips (models : List Model)
    (existing : List String) (getColumns : String → List ColumnMetadata)
    (fksOf : String → List ForeignKeyMetadata) (plan : List Stmt)
    (etn ntn : String) (model : Model) (f : Field) (cn : String)
    (ta td : List String) (tr : List (String × String))
    (adds dels : List String) (rens : List (String × String))
    (alters : List Stmt)
    (hok : calc_changes models existing getColumns fksOf = .ok plan)
    (hct : calc_table_changes models existing = .ok (ta, td, tr))
    (hetn : etn ∈ existing.dedup) (hnd : etn ∉ td)
    (hntn : ntn = (lookupLast tr etn).getD etn)
    (hmod : lookupLast (modelByTable models) ntn = some model)
    (hcc : calc_column_changes etn ntn (getColumns etn) model.fields
      (fksOf etn) = .ok (adds, dels, rens, alters))
    (hcn : cn ∈ adds)
    (hf : lookupLast (fieldDict model.fields) cn = some f)
    (hnull : f.null = false) (hdef : f.default = false) :
    ([Stmt.addColumn ntn cn, Stmt.comment warnText,
        Stmt.addNotNull ntn cn] <:+: plan) ∧
    "--".toList.isPrefixOf warnText.toList = true ∧
    isCommentLine warnText = true ∧
    ∀ (σ : Type) (step : String → List String → σ → Except String σ)
      (to_run : List (String × List String)) (s : σ),
      _execute step to_run s =
        runAll step (to_run.filter (fun q => !isCommentLine q.1)) s := by
  refine ⟨?_, by decide, by decide, fun σ step to_run s =>
    execute_eq_runAll_filter step to_run s⟩
  rcases calc_changes_ok_decomp hok with ⟨ta2, td2, tr2, blocks, hct2, hbl, hplan⟩
  rw [hct] at hct2
  injection hct2 with h3
  injection h3 with h4 h5
  injection h5 with h6 h7
  subst h4 h6 h7
  have hmemf : etn ∈ existing.dedup.filter (fun t => !td.contains t) :=
    List.mem_filter.mpr ⟨hetn, by simp [hnd]⟩
  rcases mapME_ok_mem hbl etn hmemf with ⟨b, hb⟩
  have hbmem : b ∈ blocks := mapME_mem_of_ok hbl hmemf hb
  rcases tableBlock_ok_decomp hb with ⟨hbnil, hnone⟩ |
    ⟨model2, adds2, dels2, rens2, alters2, hmod2, hcc2, hbdef⟩
  · rw [← hntn] at hnone
    rw [hmod] at hnone
    cases hnone
  · rw [← hntn] at hmod2 hcc2 hbdef
    rw [hmod] at hmod2
    injection hmod2 with hmodeq
    subst hmodeq
    rw [hcc] at hcc2
    injection hcc2 with h8
    injection h8 with h9 h10
    injection h10 with h11 h12
    injection h12 with h13 h14
    subst h9 h11 h13 h14
    have hgroup : addColumnGroup ntn cn (lookupLast (fieldDict model.fields) cn)
        = [Stmt.addColumn ntn cn, Stmt.comment warnText,
            Stmt.addNotNull ntn cn] := by
      rw [hf, addColumnGroup, hnull, hdef]
      rfl
    have hg1 : addColumnGroup ntn cn (lookupLast (fieldDict model.fields) cn)
        ∈ adds.map (fun cn2 => addColumnGroup ntn cn2
            (lookupLast (fieldDict model.fields) cn2)) :=
      List.mem_map_of_mem _ hcn
    have hg2 : [Stmt.addColumn ntn cn, Stmt.comment warnText,
        Stmt.addNotNull ntn cn] <:+:
        (adds.map (fun cn2 => addColumnGroup ntn cn2
          (lookupLast (fieldDict model.fields) cn2))).flatten := by
      rw [← hgroup]
      exact infix_flatten_of_mem hg1
    have hg3 : [Stmt.addColumn ntn cn, Stmt.comment warnText,
        Stmt.addNotNull ntn cn] <:+: b := by
      rw [hbdef]
      rcases hg2 with ⟨s, t, hst⟩
      refine ⟨s, t ++ (dels.map (fun cn2 => Stmt.dropColumn ntn cn2) ++
        rens.map (fun p => Stmt.renameColumn ntn p.1 p.2) ++ alters), ?_⟩
      rw [← hst]
      simp
    have hg4 : b <:+: blocks.flatten := infix_flatten_of_mem hbmem
    have hg5 := hg3.trans hg4
    rw [hplan]
    rcases hg5 with ⟨s, t, hst⟩
    refine ⟨(ta.map Stmt.createTable ++
      tr.map (fun p => Stmt.renameTable p.1 p.2)) ++ s,
      t ++ td.map Stmt.dropTable, ?_⟩
    rw [← hst]
    simp

/-- Witness for C7: the computed plan for the witness schema is exactly
add-column, warning comment, add-not-null, and the executor skips the
warning when running the rendered plan. -/
theorem calc_changes_warns_and_execute_skips_witness :
    ([Stmt.addColumn "t" "b", Stmt.comment warnText,
        Stmt.addNotNull "t" "b"] <:+:
      [Stmt.addColumn "t" "b", Stmt.comment warnText,
        Stmt.addNotNull "t" "b"]) ∧
    isCommentLine warnText = true ∧
    _execute wStep [(warnText, []), ("x", [])] 0 =
      runAll wStep
        ([(warnText, []), ("x", [])].filter (fun q => !isCommentLine q.1))
        0 :=
  let h := calc_changes_warns_and_execute_skips [wTblT] ["t"] wGetColsT
    wNoFks
    [Stmt.addColumn "t" "b", Stmt.comment warnText, Stmt.addNotNull "t" "b"]
    "t" "t" wTblT ⟨"b", "integer", false, false, none, [], false⟩ "b"
    [] [] [] ["b"] [] [] [] rfl rfl (by decide) (by decide) rfl rfl rfl
    (by decide) (by decide) rfl rfl
  ⟨h.1, h.2.2.1, h.2.2.2 Nat wStep [(warnText, []), ("x", [])] 0⟩

/-! Claim C2: the global statement order of the plan. -/

theorem calc_column_changes_alters_kinds {etn ntn : String}
    {ecols : List ColumnMetadata} {fields : List Field}
    {fks : List ForeignKeyMetadata} {adds dels : List String}
    {rens : List (String × String)} {alters : List Stmt}
    (h : calc_column_changes etn ntn ecols fields fks
      = .ok (adds, dels, rens, alters)) :
    ∀ s ∈ alters,
      (∃ t c, s = Stmt.addNotNull t c) ∨
      (∃ t c, s = Stmt.dropNotNull t c) ∨
      (∃ t c, s = Stmt.fkAdd t c) ∨
      (∃ t n, s = Stmt.fkDrop t n) := by
  rcases calc_column_changes_ok_decomp h with ⟨ms, hms, _, _, _, halters⟩
  subst halters
  intro s hs
  rcases List.mem_append.mp hs with hs2 | hs2
  · rcases List.mem_flatten.mp hs2 with ⟨l, hl, hsl⟩
    rcases mapME_ok_mem_out hms l hl with ⟨c2, _, hcm⟩
    rcases emitMeta_ok_shape hcm with rfl | ⟨dc, _, hshape | hshape⟩
    · cases hsl
    · rw [hshape] at hsl
      rcases List.mem_singleton.mp hsl with rfl
      exact Or.inl ⟨ntn, dc.name, rfl⟩
    · rw [hshape] at hsl
      rcases List.mem_singleton.mp hsl with rfl
      exact Or.inr (Or.inl ⟨ntn, dc.name, rfl⟩)
  · rcases List.mem_flatten.mp hs2 with ⟨l, hl, hsl⟩
    rcases List.mem_map.mp hl with ⟨c2, _, hlc⟩
    rcases emitFk_cases (fkDict fks) (fieldDict fields)
        (renamesNewToOld ntn ecols fields) ntn c2 with hcase | hcase | ⟨fk, _, hcase⟩ <;>
      rw [hcase] at hlc
    · rw [← hlc] at hsl
      cases hsl
    · rw [← hlc] at hsl
      rcases List.mem_singleton.mp hsl with rfl
      exact Or.inr (Or.inr (Or.inl ⟨ntn, c2, rfl⟩))
    · rw [← hlc] at hsl
      rcases List.mem_singleton.mp hsl with rfl
      exact Or.inr (Or.inr (Or.inr ⟨ntn, fk.name, rfl⟩))

theorem calc_table_changes_ok_decomp {models : List Model}
    {existing : List String} {adds dels : List String}
    {rens : List (String × String)}
    (h : calc_table_changes models existing = .ok (adds, dels, rens)) :
    sort_by_fk_deps models (tableFold models existing).adds = .ok adds ∧
      dels = (tableFold models existing).deletes ∧
      rens = (tableFold models existing).renames := by
  rw [calc_table_changes] at h
  split at h
  · rename_i sorted hsort
    cases h
    exact ⟨hsort, rfl, rfl⟩
  · cases h

theorem sort_by_fk_deps_perm {models : List Model} {l out : List String}
    (h : sort_by_fk_deps models l = .ok out) : out.Perm l := by
  rw [sort_by_fk_deps, topoSort] at h
  simpa using topoSortGo_perm _ _ _ _ h

theorem addColumnGroup_none_eq (ntn cn : String) :
    addColumnGroup ntn cn none = [Stmt.addColumn ntn cn] :=
  rfl

theorem addColumnGroup_nullable {f : Field} (ntn cn : String)
    (h : f.null = true) :
    addColumnGroup ntn cn (some f) = [Stmt.addColumn ntn cn] := by
  rw [addColumnGroup, if_pos h, List.append_nil]

theorem addColumnGroup_backfill {f : Field} (ntn cn : String)
    (hn : f.null = false) (hd : f.default = true) :
    addColumnGroup ntn cn (some f) =
      [Stmt.addColumn ntn cn, Stmt.applyDefault ntn cn,
        Stmt.addNotNull ntn cn] := by
  rw [addColumnGroup, if_neg (by simp [hn]), if_pos hd]
  rfl

theorem addColumnGroup_warning {f : Field} (ntn cn : String)
    (hn : f.null = false) (hd : f.default = false) :
    addColumnGroup ntn cn (some f) =
      [Stmt.addColumn ntn cn, Stmt.comment warnText,
        Stmt.addNotNull ntn cn] := by
  rw [addColumnGroup, if_neg (by simp [hn]), if_neg (by simp [hd])]
  rfl

theorem mapME_ok_eq_map {α β : Type} {f : α → Except String β}
    {g : α → β} :
    ∀ (l : List α) (bs : List β), mapME f l = .ok bs →
      (∀ a ∈ l, ∀ b, f a = .ok b → g a = b) → bs = l.map g := by
  intro l
  induction l with
  | nil =>
    intro bs h _
    rw [mapME] at h
    cases h
    rfl
  | cons a rest ih =>
    intro bs h hg
    rw [mapME] at h
    rcases ha : f a with e | out <;> rw [ha] at h
    · cases h
    · rcases hrest : mapME f rest with e | bs2 <;> rw [hrest] at h
      · cases h
      · cases h
        rw [List.map_cons, hg a (List.mem_cons_self a rest) out ha,
          ih bs2 hrest (fun a2 ha2 => hg a2 (List.mem_cons_of_mem _ ha2))]

/-- C2: every computed plan is ordered as: all CREATE TABLE statements
first (in foreign-key dependency order: every in-run dependency precedes
its dependent), then the table renames, then — per surviving existing
table, in table order — that table's own block consisting of its column
adds (each added NOT NULL column contributing add-column immediately
followed by its default backfill when a default is declared or the inert
warning otherwise, then add-not-null), then its column drops, then its
column renames, then its remaining alters (nullability changes and
foreign-key add/drop), and all DROP TABLE statements for deleted tables
last. The blocks are tied to the tables: `blockOf` maps each surviving
table to its block, which equals the chunk built from that table's own
`calc_column_changes` result. -/
theorem calc_changes_statement_order (models : List Model)
    (existing : List String) (getColumns : String → List ColumnMetadata)
    (fksOf : String → List ForeignKeyMetadata) (plan : List Stmt)
    (hok : calc_changes models existing getColumns fksOf = .ok plan) :
    ∃ (ta td : List String) (tr : List (String × String))
      (blockOf : String → List Stmt),
      calc_table_changes models existing = .ok (ta, td, tr) ∧
      plan = ta.map Stmt.createTable ++
        tr.map (fun p => Stmt.renameTable p.1 p.2) ++
        ((existing.dedup.filter (fun t => !td.contains t)).map
          blockOf).flatten ++
        td.map Stmt.dropTable ∧
      (∀ l1 t l2, ta = l1 ++ t :: l2 →
        ∀ d ∈ modelDeps models t, d ∈ ta → d ∈ l1) ∧
      ∀ etn ∈ existing.dedup.filter (fun t => !td.contains t),
        (blockOf etn = [] ∧
          lookupLast (modelByTable models) ((lookupLast tr etn).getD etn)
            = none) ∨
        ∃ model adds dels rens alters,
          lookupLast (modelByTable models) ((lookupLast tr etn).getD etn)
            = some model ∧
          calc_column_changes etn ((lookupLast tr etn).getD etn)
            (getColumns etn) model.fields (fksOf etn)
            = .ok (adds, dels, rens, alters) ∧
          blockOf etn =
            (adds.map (fun cn =>
              addColumnGroup ((lookupLast tr etn).getD etn) cn
                (lookupLast (fieldDict model.fields) cn))).flatten ++
            dels.map (fun cn =>
              Stmt.dropColumn ((lookupLast tr etn).getD etn) cn) ++
            rens.map (fun p =>
              Stmt.renameColumn ((lookupLast tr etn).getD etn) p.1 p.2) ++
            alters ∧
          (∀ cn ∈ adds, ∀ f,
            lookupLast (fieldDict model.fields) cn = some f →
            (f.null = true →
              addColumnGroup ((lookupLast tr etn).getD etn) cn
                  (lookupLast (fieldDict model.fields) cn)
                = [Stmt.addColumn ((lookupLast tr etn).getD etn) cn]) ∧
            (f.null = false → f.default = true →
              addColumnGroup ((lookupLast tr etn).getD etn) cn
                  (lookupLast (fieldDict model.fields) cn)
                = [Stmt.addColumn ((lookupLast tr etn).getD etn) cn,
                    Stmt.applyDefault ((lookupLast tr etn).getD etn) cn,
                    Stmt.addNotNull ((lookupLast tr etn).getD etn) cn]) ∧
            (f.null = false → f.default = false →
              addColumnGroup ((lookupLast tr etn).getD etn) cn
                  (lookupLast (fieldDict model.fields) cn)
                = [Stmt.addColumn ((lookupLast tr etn).getD etn) cn,
                    Stmt.comment warnText,
                    Stmt.addNotNull ((lookupLast tr etn).getD etn) cn])) ∧
          ∀ s ∈ alters,
            (∃ t c, s = Stmt.addNotNull t c) ∨
            (∃ t c, s = Stmt.dropNotNull t c) ∨
            (∃ t c, s = Stmt.fkAdd t c) ∨
            (∃ t n, s = Stmt.fkDrop t n) := by
  rcases calc_changes_ok_decomp hok with ⟨ta, td, tr, blocks, hct, hbl, hplan⟩
  refine ⟨ta, td, tr,
    fun etn => match tableBlock models tr getColumns fksOf etn with
      | .ok b => b
      | .error _ => [], hct, ?_, ?_, ?_⟩
  · have hmap : blocks =
        (existing.dedup.filter (fun t => !td.contains t)).map
          (fun etn =>
            match tableBlock models tr getColumns fksOf etn with
            | .ok b => b
            | .error _ => []) :=
      mapME_ok_eq_map _ _ hbl (fun a _ b hb => by
        show (match tableBlock models tr getColumns fksOf a with
          | .ok b2 => b2
          | .error _ => []) = b
        rw [hb])
    rw [hplan, hmap]
  · rcases calc_table_changes_ok_decomp hct with ⟨hsort, _, _⟩
    have hperm := sort_by_fk_deps_perm hsort
    rw [sort_by_fk_deps, topoSort] at hsort
    rcases topoSortGo_sound _ _ _ _ hsort with ⟨mid, hmid, hord⟩
    rw [List.reverse_nil, List.nil_append] at hmid
    subst hmid
    intro l1 t l2 hdec d hd hdta
    exact hord l1 t l2 hdec d hd (hperm.mem_iff.mp hdta)
  · intro etn hetn
    rcases mapME_ok_mem hbl etn hetn with ⟨b, hb⟩
    have hbo : (match tableBlock models tr getColumns fksOf etn with
        | .ok b2 => b2
        | .error _ => []) = b := by rw [hb]
    simp only []
    rw [hbo]
    rcases tableBlock_ok_decomp hb with ⟨hbnil, hnone⟩ |
      ⟨model, adds, dels, rens, alters, hmod, hcc, hbdef⟩
    · exact Or.inl ⟨hbnil, hnone⟩
    · refine Or.inr ⟨model, adds, dels, rens, alters, hmod, hcc, hbdef,
        ?_, calc_column_changes_alters_kinds hcc⟩
      intro cn _ f hf
      rw [hf]
      exact ⟨fun h => addColumnGroup_nullable _ _ h,
        fun hn hd => addColumnGroup_backfill _ _ hn hd,
        fun hn hd => addColumnGroup_warning _ _ hn hd⟩

/-- Witness for C2: the plan of the example schema (rename
`users → people`, add `signup_ip`, add NOT NULL on `name`) is computed
and satisfies the full table-tied ordering decomposition. -/
theorem calc_changes_statement_order_witness :
    calc_changes [wPeople] ["users"] wUsersCols wNoFks =
      .ok [Stmt.renameTable "users" "people",
        Stmt.addColumn "people" "signup_ip",
        Stmt.addNotNull "people" "name"] ∧
    ∃ (ta td : List String) (tr : List (String × String))
      (blockOf : String → List Stmt),
      calc_table_changes [wPeople] ["users"] = .ok (ta, td, tr) ∧
      [Stmt.renameTable "users" "people",
        Stmt.addColumn "people" "signup_ip",
        Stmt.addNotNull "people" "name"] =
        ta.map Stmt.createTable ++
        tr.map (fun p => Stmt.renameTable p.1 p.2) ++
        ((["users"].dedup.filter (fun t => !td.contains t)).map
          blockOf).flatten ++
        td.map Stmt.dropTable ∧
      (∀ l1 t l2, ta = l1 ++ t :: l2 →
        ∀ d ∈ modelDeps [wPeople] t, d ∈ ta → d ∈ l1) ∧
      ∀ etn ∈ ["users"].dedup.filter (fun t => !td.contains t),
        (blockOf etn = [] ∧
          lookupLast (modelByTable [wPeople]) ((lookupLast tr etn).getD etn)
            = none) ∨
        ∃ model adds dels rens alters,
          lookupLast (modelByTable [wPeople]) ((lookupLast tr etn).getD etn)
            = some model ∧
          calc_column_changes etn ((lookupLast tr etn).getD etn)
            (wUsersCols etn) model.fields (wNoFks etn)
            = .ok (adds, dels, rens, alters) ∧
          blockOf etn =
            (adds.map (fun cn =>
              addColumnGroup ((lookupLast tr etn).getD etn) cn
                (lookupLast (fieldDict model.fields) cn))).flatten ++
            dels.map (fun cn =>
              Stmt.dropColumn ((lookupLast tr etn).getD etn) cn) ++
            rens.map (fun p =>
              Stmt.renameColumn ((lookupLast tr etn).getD etn) p.1 p.2) ++
            alters ∧
          (∀ cn ∈ adds, ∀ f,
            lookupLast (fieldDict model.fields) cn = some f →
            (f.null = true →
              addColumnGroup ((lookupLast tr etn).getD etn) cn
                  (lookupLast (fieldDict model.fields) cn)
                = [Stmt.addColumn ((lookupLast tr etn).getD etn) cn]) ∧
            (f.null = false → f.default = true →
              addColumnGroup ((lookupLast tr etn).getD etn) cn
                  (lookupLast (fieldDict model.fields) cn)
                = [Stmt.addColumn ((lookupLast tr etn).getD etn) cn,
                    Stmt.applyDefault ((lookupLast tr etn).getD etn) cn,
                    Stmt.addNotNull ((lookupLast tr etn).getD etn) cn]) ∧
            (f.null = false → f.default = false →
              addColumnGroup ((lookupLast tr etn).getD etn) cn
                  (lookupLast (fieldDict model.fields) cn)
                = [Stmt.addColumn ((lookupLast tr etn).getD etn) cn,
                    Stmt.comment warnText,
                    Stmt.addNotNull ((lookupLast tr etn).getD etn) cn])) ∧
          ∀ s ∈ alters,
            (∃ t c, s = Stmt.addNotNull t c) ∨
            (∃ t c, s = Stmt.dropNotNull t c) ∨
            (∃ t c, s = Stmt.fkAdd t c) ∨
            (∃ t n, s = Stmt.fkDrop t n) :=
  ⟨rfl, calc_changes_statement_order [wPeople] ["users"] wUsersCols wNoFks
    [Stmt.renameTable "users" "people", Stmt.addColumn "people" "signup_ip",
      Stmt.addNotNull "people" "name"] rfl⟩

/-! Counting helpers for locating one column's statements. -/

theorem count_flatten_zero {x : Stmt} :
    ∀ L : List (List Stmt), (∀ m ∈ L, m.count x = 0) →
      L.flatten.count x = 0 := by
  intro L
  induction L with
  | nil => intro _; rfl
  | cons m rest ih =>
    intro h
    rw [List.flatten_cons, List.count_append,
      h m (List.mem_cons_self m rest), ih (fun m2 hm => h m2
        (List.mem_cons_of_mem _ hm))]

theorem count_flatten_map_single {f : String → List Stmt} {x : Stmt}
    {c : String} :
    ∀ l : List String, l.Nodup → c ∈ l →
      (∀ c2 ∈ l, c2 ≠ c → (f c2).count x = 0) →
      ((l.map f).flatten).count x = (f c).count x := by
  intro l
  induction l with
  | nil => intro _ hc; cases hc
  | cons a rest ih =>
    intro hn hc hother
    rw [List.map_cons, List.flatten_cons, List.count_append]
    by_cases hac : a = c
    · subst hac
      have hz : ((rest.map f).flatten).count x = 0 := by
        apply count_flatten_zero
        intro m hm
        rcases List.mem_map.mp hm with ⟨c2, hc2, rfl⟩
        exact hother c2 (List.mem_cons_of_mem _ hc2)
          (fun hcc => (List.nodup_cons.mp hn).1 (hcc ▸ hc2))
      rw [hz]
      exact Nat.add_zero _
    · rw [hother a (List.mem_cons_self a rest) hac]
      have hcr : c ∈ rest := by
        rcases List.mem_cons.mp hc with h1 | h1
        · exact absurd h1.symm hac
        · exact h1
      rw [Nat.zero_add]
      exact ih (List.nodup_cons.mp hn).2 hcr
        (fun c2 hc2 => hother c2 (List.mem_cons_of_mem _ hc2))

theorem mapME_count_zero {f : String → Except String (List Stmt)}
    {x : Stmt} :
    ∀ (l : List String) (ms : List (List Stmt)), mapME f l = .ok ms →
      (∀ c2 ∈ l, ∀ out, f c2 = .ok out → out.count x = 0) →
      ms.flatten.count x = 0 := by
  intro l
  induction l with
  | nil =>
    intro ms h _
    rw [mapME] at h
    cases h
    rfl
  | cons a rest ih =>
    intro ms h hall
    rw [mapME] at h
    rcases ha : f a with e | out <;> rw [ha] at h
    · cases h
    · rcases hrest : mapME f rest with e | ms2 <;> rw [hrest] at h
      · cases h
      · cases h
        rw [List.flatten_cons, List.count_append,
          hall a (List.mem_cons_self a rest) out ha,
          ih ms2 hrest (fun c2 hc2 => hall c2 (List.mem_cons_of_mem _ hc2))]

theorem notNewColumns_nodup (ntn : String) (ecols : List ColumnMetadata)
    (fields : List Field) : (notNewColumns ntn ecols fields).Nodup :=
  (List.nodup_dedup _).filter _

/-! Claim C5: foreign-key add/drop symmetry per surviving column. -/

/-- C5: for every surviving column (post-rename), a declared foreign key
with no existing constraint on the (pre-rename) column yields exactly one
foreign-key-add statement, and a non-foreign-key declaration with an
existing constraint on the pre-rename column yields exactly one drop
naming the existing constraint, located by the pre-rename existing
column name. -/
theorem calc_column_changes_fk_symmetry (etn ntn : String)
    (ecols : List ColumnMetadata) (fields : List Field)
    (fks : List ForeignKeyMetadata) (c : String) (f : Field)
    (adds dels : List String) (rens : List (String × String))
    (alters : List Stmt)
    (hok : calc_column_changes etn ntn ecols fields fks
      = .ok (adds, dels, rens, alters))
    (hc : c ∈ notNewColumns ntn ecols fields)
    (hf : lookupLast (fieldDict fields) c = some f)
    (hinj : ∀ c2 ∈ notNewColumns ntn ecols fields, c2 ≠ c →
      oldColName (renamesNewToOld ntn ecols fields) c2 ≠
        oldColName (renamesNewToOld ntn ecols fields) c) :
    (f.fk_dest.isSome = true →
      lookupLast (fkDict fks)
        (oldColName (renamesNewToOld ntn ecols fields) c) = none →
      alters.count (Stmt.fkAdd ntn c) = 1) ∧
    (∀ fk : ForeignKeyMetadata, f.fk_dest.isSome = false →
      lookupLast (fkDict fks)
        (oldColName (renamesNewToOld ntn ecols fields) c) = some fk →
      (fks.map (fun x => x.name)).Nodup →
      alters.count (Stmt.fkDrop ntn fk.name) = 1) := by
  rcases calc_column_changes_ok_decomp hok with ⟨ms, hms, _, _, _, halters⟩
  subst halters
  have hmszero : ∀ x : Stmt,
      (∀ t2 c2, x ≠ Stmt.addNotNull t2 c2) →
      (∀ t2 c2, x ≠ Stmt.dropNotNull t2 c2) →
      ms.flatten.count x = 0 := by
    intro x hx1 hx2
    apply mapME_count_zero _ ms hms
    intro c2 _ out hout
    rcases emitMeta_ok_shape hout with rfl | ⟨dc, _, rfl | rfl⟩
    · rfl
    · rw [List.count_eq_zero]
      intro hmem
      rcases List.mem_singleton.mp hmem with rfl
      exact hx1 _ _ rfl
    · rw [List.count_eq_zero]
      intro hmem
      rcases List.mem_singleton.mp hmem with rfl
      exact hx2 _ _ rfl
  constructor
  · intro hsome hnofk
    rw [List.count_append]
    rw [hmszero _ (fun t2 c2 h => Stmt.noConfusion h)
      (fun t2 c2 h => Stmt.noConfusion h), Nat.zero_add]
    have hcself : emitFk (fkDict fks) (fieldDict fields)
        (renamesNewToOld ntn ecols fields) ntn c = [Stmt.fkAdd ntn c] := by
      simp [emitFk, hf, hnofk, hsome]
    rw [count_flatten_map_single (notNewColumns ntn ecols fields)
      (notNewColumns_nodup ntn ecols fields) hc ?_, hcself]
    · simp
    · intro c2 hc2 hne
      rcases emitFk_cases (fkDict fks) (fieldDict fields)
          (renamesNewToOld ntn ecols fields) ntn c2 with hcase | hcase |
          ⟨fk2, _, hcase⟩ <;> rw [hcase]
      · rfl
      · rw [List.count_eq_zero]
        intro hmem
        have heq := List.mem_singleton.mp hmem
        injection heq with h1 h2
        exact hne h2.symm
      · rw [List.count_eq_zero]
        intro hmem
        rcases List.mem_singleton.mp hmem with heq
        exact Stmt.noConfusion heq
  · intro fk hnone hsomefk hnodup
    rw [List.count_append]
    rw [hmszero _ (fun t2 c2 h => Stmt.noConfusion h)
      (fun t2 c2 h => Stmt.noConfusion h), Nat.zero_add]
    have hcself : emitFk (fkDict fks) (fieldDict fields)
        (renamesNewToOld ntn ecols fields) ntn c
        = [Stmt.fkDrop ntn fk.name] := by
      simp [emitFk, hf, hsomefk, hnone]
    rw [count_flatten_map_single (notNewColumns ntn ecols fields)
      (notNewColumns_nodup ntn ecols fields) hc ?_, hcself]
    · simp
    · intro c2 hc2 hne
      rcases emitFk_cases (fkDict fks) (fieldDict fields)
          (renamesNewToOld ntn ecols fields) ntn c2 with hcase | hcase |
          ⟨fk2, hfk2, hcase⟩ <;> rw [hcase]
      · rfl
      · rw [List.count_eq_zero]
        intro hmem
        rcases List.mem_singleton.mp hmem with heq
        exact Stmt.noConfusion heq
      · rw [List.count_eq_zero]
        intro hmem
        rcases List.mem_singleton.mp hmem with heq
        have hname : fk2.name = fk.name := by
          injection heq with _ h2
          exact h2.symm
        have h2 := lookupLast_fkDict hfk2
        have h3 := lookupLast_fkDict hsomefk
        have : fk2 = fk :=
          List.inj_on_of_nodup_map hnodup h2.1 h3.1 hname
        exact hinj c2 hc2 hne (by rw [← h2.2, this, h3.2])

/-- Witness for C5: declaring `owner_id` as a foreign key where none
exists yields exactly one foreign-key add; dropping the foreign-key
declaration while renaming `user_id` to `owner_id` yields exactly one
drop naming the existing constraint `fk1`, found via the pre-rename
name. -/
theorem calc_column_changes_fk_symmetry_witness :
    (calc_column_changes "t" "t" [⟨"owner_id", "integer", true, false, "t"⟩]
        [⟨"owner_id", "integer", true, false, some "users", [], false⟩] [] =
      .ok ([], [], [], [Stmt.fkAdd "t" "owner_id"])) ∧
    [Stmt.fkAdd "t" "owner_id"].count (Stmt.fkAdd "t" "owner_id") = 1 ∧
    (calc_column_changes "t" "t" [⟨"user_id", "integer", true, false, "t"⟩]
        [⟨"owner_id", "integer", true, false, none, ["user_id"], false⟩]
        [⟨"user_id", "users", "id", "t", "fk1"⟩] =
      .ok ([], [], [("user_id", "owner_id")], [Stmt.fkDrop "t" "fk1"])) ∧
    [Stmt.fkDrop "t" "fk1"].count (Stmt.fkDrop "t" "fk1") = 1 :=
  ⟨rfl,
    (calc_column_changes_fk_symmetry "t" "t"
      [⟨"owner_id", "integer", true, false, "t"⟩]
      [⟨"owner_id", "integer", true, false, some "users", [], false⟩] []
      "owner_id" ⟨"owner_id", "integer", true, false, some "users", [], false⟩
      [] [] [] [Stmt.fkAdd "t" "owner_id"] rfl (by decide) (by decide)
      (by decide)).1 rfl rfl,
    rfl,
    (calc_column_changes_fk_symmetry "t" "t"
      [⟨"user_id", "integer", true, false, "t"⟩]
      [⟨"owner_id", "integer", true, false, none, ["user_id"], false⟩]
      [⟨"user_id", "users", "id", "t", "fk1"⟩] "owner_id"
      ⟨"owner_id", "integer", true, false, none, ["user_id"], false⟩
      [] [] [("user_id", "owner_id")] [Stmt.fkDrop "t" "fk1"] rfl
      (by decide) (by decide) (by decide)).2
      ⟨"user_id", "users", "id", "t", "fk1"⟩ rfl (by decide) (by decide)⟩

/-! Claim C6: pure nullability changes. -/

theorem filter_flatten_nil {p : Stmt → Bool} {f : String → List Stmt} :
    ∀ l : List String, (∀ a ∈ l, (f a).filter p = []) →
      ((l.map f).flatten).filter p = [] := by
  intro l
  induction l with
  | nil => intro _; rfl
  | cons a rest ih =>
    intro h
    rw [List.map_cons, List.flatten_cons, List.filter_append,
      h a (List.mem_cons_self a rest),
      ih (fun a2 ha2 => h a2 (List.mem_cons_of_mem _ ha2))]
    rfl

theorem mapME_filter_nil {p : Stmt → Bool}
    {f : String → Except String (List Stmt)} :
    ∀ (l : List String) (ms : List (List Stmt)), mapME f l = .ok ms →
      (∀ c2 ∈ l, ∀ out, f c2 = .ok out → out.filter p = []) →
      ms.flatten.filter p = [] := by
  intro l
  induction l with
  | nil =>
    intro ms h _
    rw [mapME] at h
    cases h
    rfl
  | cons a rest ih =>
    intro ms h hall
    rw [mapME] at h
    rcases ha : f a with e | out <;> rw [ha] at h
    · cases h
    · rcases hrest : mapME f rest with e | ms2 <;> rw [hrest] at h
      · cases h
      · cases h
        rw [List.flatten_cons, List.filter_append,
          hall a (List.mem_cons_self a rest) out ha,
          ih ms2 hrest (fun c2 hc2 => hall c2 (List.mem_cons_of_mem _ hc2))]
        rfl

theorem mapME_filter_single {p : Stmt → Bool}
    {f : String → Except String (List Stmt)} {c : String} :
    ∀ (l : List String) (ms : List (List Stmt)), mapME f l = .ok ms →
      l.Nodup → c ∈ l →
      (∀ c2 ∈ l, c2 ≠ c → ∀ out, f c2 = .ok out → out.filter p = []) →
      ∃ rc, f c = .ok rc ∧ ms.flatten.filter p = rc.filter p := by
  intro l
  induction l with
  | nil => intro ms _ _ hc; cases hc
  | cons a rest ih =>
    intro ms h hn hc hother
    rw [mapME] at h
    rcases ha : f a with e | out <;> rw [ha] at h
    · cases h
    · rcases hrest : mapME f rest with e | ms2 <;> rw [hrest] at h
      · cases h
      · cases h
        by_cases hac : a = c
        · subst hac
          refine ⟨out, ha, ?_⟩
          rw [List.flatten_cons, List.filter_append]
          have hz : ms2.flatten.filter p = [] := by
            apply mapME_filter_nil rest ms2 hrest
            intro c2 hc2 out2 hout2
            exact hother c2 (List.mem_cons_of_mem _ hc2)
              (fun hcc => (List.nodup_cons.mp hn).1 (hcc ▸ hc2)) out2 hout2
          rw [hz, List.append_nil]
        · have hcr : c ∈ rest := by
            rcases List.mem_cons.mp hc with h1 | h1
            · exact absurd h1.symm hac
            · exact h1
          rcases ih ms2 hrest (List.nodup_cons.mp hn).2 hcr
              (fun c2 hc2 => hother c2 (List.mem_cons_of_mem _ hc2)) with
            ⟨rc, hrc, hfil⟩
          refine ⟨rc, hrc, ?_⟩
          rw [List.flatten_cons, List.filter_append,
            hother a (List.mem_cons_self a rest) hac out ha,
            List.nil_append, hfil]

/-- C6: for every surviving column whose existing and declared
definitions differ only in nullability (canonical type, primary-key
flag, and foreign-key status unchanged), a nullable-to-not-null change
produces exactly one add-NOT-NULL alter and no other alter for that
column, and a not-null-to-nullable change produces exactly one
drop-NOT-NULL alter and no other alter for that column. -/
theorem calc_column_changes_nullability_only (etn ntn : String)
    (ecols : List ColumnMetadata) (fields : List Field)
    (fks : List ForeignKeyMetadata) (c : String) (f : Field)
    (ec dc : ColumnMetadata) (adds dels : List String)
    (rens : List (String × String)) (alters : List Stmt)
    (hok : calc_column_changes etn ntn ecols fields fks
      = .ok (adds, dels, rens, alters))
    (hc : c ∈ notNewColumns ntn ecols fields)
    (hf : lookupLast (fieldDict fields) c = some f)
    (hec : lookupLast (colDict (normExisting ecols))
      (oldColName (renamesNewToOld ntn ecols fields) c) = some ec)
    (hdc : lookupLast (colDict (definedColumns ntn fields)) c = some dc)
    (htype : ec.data_type = dc.data_type)
    (hpk : ec.primary_key = dc.primary_key)
    (hfkpar : f.fk_dest.isSome =
      (lookupLast (fkDict fks)
        (oldColName (renamesNewToOld ntn ecols fields) c)).isSome)
    (hinj : ∀ c2 ∈ notNewColumns ntn ecols fields, c2 ≠ c →
      oldColName (renamesNewToOld ntn ecols fields) c2 ≠
        oldColName (renamesNewToOld ntn ecols fields) c)
    (hfkN : (fks.map (fun x => x.name)).Nodup) :
    (ec.null = true → dc.null = false →
      altersForColumn fks (oldColName (renamesNewToOld ntn ecols fields) c)
        c alters = [Stmt.addNotNull ntn c]) ∧
    (ec.null = false → dc.null = true →
      altersForColumn fks (oldColName (renamesNewToOld ntn ecols fields) c)
        c alters = [Stmt.dropNotNull ntn c]) := by
  rcases calc_column_changes_ok_decomp hok with ⟨ms, hms, _, _, _, halters⟩
  subst halters
  have hcname : dc.name = c := (lookupLast_colDict hdc).2
  have hfknil :
      (((notNewColumns ntn ecols fields).map
        (emitFk (fkDict fks) (fieldDict fields)
          (renamesNewToOld ntn ecols fields) ntn)).flatten).filter
        (columnAlterTest fks
          (oldColName (renamesNewToOld ntn ecols fields) c) c) = [] := by
    apply filter_flatten_nil
    intro c2 hc2
    by_cases hc2c : c2 = c
    · subst hc2c
      have hnil : emitFk (fkDict fks) (fieldDict fields)
          (renamesNewToOld ntn ecols fields) ntn c2 = [] := by
        rcases hl : lookupLast (fkDict fks)
            (oldColName (renamesNewToOld ntn ecols fields) c2) with _ | fk2
        · rw [hl] at hfkpar
          simp [emitFk, hf, hl, hfkpar]
        · rw [hl] at hfkpar
          simp [emitFk, hf, hl, hfkpar]
      rw [hnil]
      rfl
    · rcases emitFk_cases (fkDict fks) (fieldDict fields)
          (renamesNewToOld ntn ecols fields) ntn c2 with hcase | hcase |
          ⟨fk2, hfk2, hcase⟩ <;> rw [hcase]
      · rfl
      · simp [columnAlterTest, hc2c]
      · have hp : columnAlterTest fks
            (oldColName (renamesNewToOld ntn ecols fields) c) c
            (Stmt.fkDrop ntn fk2.name) = false := by
          rw [columnAlterTest]
          rw [List.any_eq_false]
          intro fkw hfkw
          intro hcontra
          rw [Bool.and_eq_true, beq_iff_eq, beq_iff_eq] at hcontra
          have h2 := lookupLast_fkDict hfk2
          have heqw : fkw = fk2 :=
            List.inj_on_of_nodup_map hfkN hfkw h2.1 hcontra.1
          exact hinj c2 hc2 hc2c (by rw [← h2.2, ← heqw, hcontra.2])
        simp [hp]
  have hmain : ∀ out : List Stmt,
      emitMeta (colDict (normExisting ecols))
        (colDict (definedColumns ntn fields))
        (renamesNewToOld ntn ecols fields) ntn c = .ok out →
      (ms.flatten ++
        ((notNewColumns ntn ecols fields).map
          (emitFk (fkDict fks) (fieldDict fields)
            (renamesNewToOld ntn ecols fields) ntn)).flatten).filter
        (columnAlterTest fks
          (oldColName (renamesNewToOld ntn ecols fields) c) c)
        = out.filter (columnAlterTest fks
          (oldColName (renamesNewToOld ntn ecols fields) c) c) := by
    intro out hout
    have hother : ∀ c2 ∈ notNewColumns ntn ecols fields, c2 ≠ c →
        ∀ out2, emitMeta (colDict (normExisting ecols))
          (colDict (definedColumns ntn fields))
          (renamesNewToOld ntn ecols fields) ntn c2 = .ok out2 →
        out2.filter (columnAlterTest fks
          (oldColName (renamesNewToOld ntn ecols fields) c) c) = [] := by
      intro c2 hc2 hne out2 hout2
      rcases emitMeta_ok_shape hout2 with rfl | ⟨dc2, hdc2, rfl | rfl⟩
      · rfl
      · have hn2 : dc2.name = c2 := (lookupLast_colDict hdc2).2
        simp [columnAlterTest, hn2, hne]
      · have hn2 : dc2.name = c2 := (lookupLast_colDict hdc2).2
        simp [columnAlterTest, hn2, hne]
    rcases mapME_filter_single (notNewColumns ntn ecols fields) ms hms
        (notNewColumns_nodup ntn ecols fields) hc hother with ⟨rc, hrc, hfil⟩
    rw [List.filter_append, hfknil, List.append_nil, hfil]
    rw [hout] at hrc
    injection hrc with hrceq
    rw [hrceq]
  constructor
  · intro hE hD
    have hch : column_def_changed ec dc = true := by
      simp [column_def_changed, hE, hD]
    have hm : emitMeta (colDict (normExisting ecols))
        (colDict (definedColumns ntn fields))
        (renamesNewToOld ntn ecols fields) ntn c
        = .ok [Stmt.addNotNull ntn dc.name] := by
      rw [emitMeta]
      simp [hec, hdc, hch, hE, hD]
    rw [altersForColumn, hmain _ hm, hcname]
    simp [columnAlterTest]
  · intro hE hD
    have hch : column_def_changed ec dc = true := by
      simp [column_def_changed, hE, hD]
    have hm : emitMeta (colDict (normExisting ecols))
        (colDict (definedColumns ntn fields))
        (renamesNewToOld ntn ecols fields) ntn c
        = .ok [Stmt.dropNotNull ntn dc.name] := by
      rw [emitMeta]
      simp [hec, hdc, hch, hE, hD]
    rw [altersForColumn, hmain _ hm, hcname]
    simp [columnAlterTest]

/-- Witness for C6: `name` going nullable to NOT NULL (all else equal)
yields exactly the add-not-null alter for that column, and the reverse
direction yields exactly the drop-not-null alter. -/
theorem calc_column_changes_nullability_only_witness :
    altersForColumn [] "name" "name" [Stmt.addNotNull "people" "name"] =
      [Stmt.addNotNull "people" "name"] ∧
    altersForColumn [] "name" "name" [Stmt.dropNotNull "t" "name"] =
      [Stmt.dropNotNull "t" "name"] :=
  ⟨(calc_column_changes_nullability_only "users" "people"
      [⟨"id", "integer", false, true, "users"⟩,
        ⟨"name", "character varying", true, false, "users"⟩]
      [⟨"id", "SERIAL", false, true, none, [], false⟩,
        ⟨"name", "VARCHAR(255)", false, false, none, [], false⟩,
        ⟨"signup_ip", "VARCHAR(32)", true, false, none, [], false⟩]
      [] "name" ⟨"name", "VARCHAR(255)", false, false, none, [], false⟩
      ⟨"name", "varchar", true, false, "users"⟩
      ⟨"name", "varchar", false, false, "people"⟩
      ["signup_ip"] [] [] [Stmt.addNotNull "people" "name"]
      rfl (by decide) (by decide) (by decide) (by decide) rfl rfl rfl
      (by decide) (by decide)).1 rfl rfl,
    (calc_column_changes_nullability_only "t" "t"
      [⟨"name", "varchar", false, false, "t"⟩]
      [⟨"name", "varchar", true, false, none, [], false⟩]
      [] "name" ⟨"name", "varchar", true, false, none, [], false⟩
      ⟨"name", "varchar", false, false, "t"⟩
      ⟨"name", "varchar", true, false, "t"⟩
      [] [] [] [Stmt.dropNotNull "t" "name"]
      rfl (by decide) (by decide) (by decide) (by decide) rfl rfl rfl
      (by decide) (by decide)).2 rfl rfl⟩

/-! Claim C9: rename resolution keeps the add- and delete-sets disjoint. -/

theorem mem_dictInsert_prop {α : Type} {P : String × α → Prop}
    {d : List (String × α)} {k : String} {v : α}
    (hd : ∀ p ∈ d, P p) (hkv : P (k, v)) :
    ∀ p ∈ dictInsert k v d, P p := by
  intro p hp
  rcases mem_dictInsert hp with rfl | hp2
  · exact hkv
  · exact hd p hp2

theorem tableRenameStep_inv {models : List Model} {a0 d0 : List String}
    {st : TableState} {t : String} (h : TInv a0 d0 st) :
    TInv a0 d0 (tableRenameStep models t st) := by
  rcases h with ⟨h1, h2, h3, h4, h5⟩
  rw [tableRenameStep]
  split
  · exact ⟨h1, h2, h3, h4, h5⟩
  · split
    · rename_i cls _ a hfind
      refine ⟨fun x hx => h1 (List.mem_of_mem_erase hx),
        fun x hx => h2 (List.mem_of_mem_erase hx), h3.erase t, h4.erase a,
        ?_⟩
      apply mem_dictInsert_prop
      · intro p hp
        exact ⟨fun hc => (h5 p hp).1 (List.mem_of_mem_erase hc),
          fun hc => (h5 p hp).2 (List.mem_of_mem_erase hc)⟩
      · exact ⟨fun hc => (h3.mem_erase_iff.mp hc).1 rfl,
          fun hc => (h4.mem_erase_iff.mp hc).1 rfl⟩
    · exact ⟨h1, h2, h3, h4, h5⟩

theorem tableFold_steps_inv {models : List Model} {a0 d0 : List String} :
    ∀ (l : List String) (st : TableState), TInv a0 d0 st →
      TInv a0 d0 (l.foldl (fun st t => tableRenameStep models t st) st) := by
  intro l
  induction l with
  | nil => intro st h; exact h
  | cons t rest ih =>
    intro st h
    rw [List.foldl_cons]
    exact ih _ (tableRenameStep_inv h)

theorem tableFold_inv (models : List Model) (existing : List String) :
    TInv (tableAdds0 models existing) (tableDels0 models existing)
      (tableFold models existing) := by
  rw [tableFold]
  exact tableFold_steps_inv _ _
    ⟨fun x hx => hx, fun x hx => hx, (List.nodup_dedup _).filter _,
      (List.nodup_dedup _).filter _, fun p hp => absurd hp
        (List.not_mem_nil p)⟩

theorem colRenameAka_inv {exD : List (String × ColumnMetadata)}
    {sc : ColumnMetadata} {cn : String} {n0 d0 : List String}
    {st : ColState} {aka : String} (hsc : sc.name = cn)
    (hexn : ∀ k ec, lookupLast exD k = some ec → ec.name = k)
    (h : CInv n0 d0 st) : CInv n0 d0 (colRenameAka exD sc cn st aka) := by
  rcases h with ⟨h1, h2, h3, h4, h5⟩
  rw [colRenameAka]
  split
  · split
    · rename_i hdel ec hec
      split
      · refine ⟨fun x hx => h1 (List.mem_of_mem_erase hx),
          fun x hx => h2 (List.mem_of_mem_erase hx), h3.erase cn,
          h4.erase aka, ?_⟩
        apply mem_dictInsert_prop
        · intro p hp
          exact ⟨fun hc => (h5 p hp).1 (List.mem_of_mem_erase hc),
            fun hc => (h5 p hp).2 (List.mem_of_mem_erase hc)⟩
        · constructor
          · rw [hsc]
            exact fun hc => (h3.mem_erase_iff.mp hc).1 rfl
          · rw [hexn aka ec hec]
            exact fun hc => (h4.mem_erase_iff.mp hc).1 rfl
      · exact ⟨h1, h2, h3, h4, h5⟩
    · exact ⟨h1, h2, h3, h4, h5⟩
  · exact ⟨h1, h2, h3, h4, h5⟩

theorem colRenameStep_inv {ntn : String} {ecols : List ColumnMetadata}
    {fields : List Field} {n0 d0 : List String} {st : ColState}
    {cn : String} (h : CInv n0 d0 st) :
    CInv n0 d0 (colRenameStep (colDict (definedColumns ntn fields))
      (colDict (normExisting ecols)) (fieldDict fields) cn st) := by
  rw [colRenameStep]
  split
  · rename_i field sc _ hsc
    have hscn : sc.name = cn := (lookupLast_colDict hsc).2
    have hexn : ∀ k ec,
        lookupLast (colDict (normExisting ecols)) k = some ec →
        ec.name = k := fun k ec hk => (lookupLast_colDict hk).2
    generalize hst : st = st0 at h
    clear hst
    induction field.akas generalizing st0 with
    | nil => exact h
    | cons a rest ih =>
      rw [List.foldl_cons]
      exact ih _ (colRenameAka_inv hscn hexn h)
  · exact h

theorem colFold_steps_inv {ntn : String} {ecols : List ColumnMetadata}
    {fields : List Field} {n0 d0 : List String} :
    ∀ (l : List String) (st : ColState), CInv n0 d0 st →
      CInv n0 d0 (l.foldl
        (fun st cn => colRenameStep (colDict (definedColumns ntn fields))
          (colDict (normExisting ecols)) (fieldDict fields) cn st) st) := by
  intro l
  induction l with
  | nil => intro st h; exact h
  | cons cn rest ih =>
    intro st h
    rw [List.foldl_cons]
    exact ih _ (colRenameStep_inv h)

theorem colFold_inv (ntn : String) (ecols : List ColumnMetadata)
    (fields : List Field) :
    CInv (initialNewCols ntn ecols fields)
      (initialDeleteCols ntn ecols fields) (colFold ntn ecols fields) := by
  rw [colFold]
  exact colFold_steps_inv _ _
    ⟨fun x hx => hx, fun x hx => hx, (List.nodup_dedup _).filter _,
      (List.nodup_dedup _).filter _,
      fun p hp => absurd hp (List.not_mem_nil p)⟩

/-- C9: after rename resolution, at both the table level and the column
level, no name appears in both the add-set and the delete-set, and every
recorded rename has its target out of the add-set and its source out of
the delete-set. -/
theorem rename_resolution_disjoint :
    (∀ (models : List Model) (existing adds dels : List String)
      (rens : List (String × String)),
      calc_table_changes models existing = .ok (adds, dels, rens) →
      (∀ t ∈ adds, t ∉ dels) ∧
        ∀ p ∈ rens, p.2 ∉ adds ∧ p.1 ∉ dels) ∧
    (∀ (etn ntn : String) (ecols : List ColumnMetadata)
      (fields : List Field) (fks : List ForeignKeyMetadata)
      (adds dels : List String) (rens : List (String × String))
      (alters : List Stmt),
      calc_column_changes etn ntn ecols fields fks
        = .ok (adds, dels, rens, alters) →
      (∀ c ∈ adds, c ∉ dels) ∧
        ∀ p ∈ rens, p.2 ∉ adds ∧ p.1 ∉ dels) := by
  constructor
  · intro models existing adds dels rens h
    rcases calc_table_changes_ok_decomp h with ⟨hsort, rfl, rfl⟩
    have hperm := sort_by_fk_deps_perm hsort
    rcases tableFold_inv models existing with ⟨h1, h2, _, _, h5⟩
    constructor
    · intro t ht
      have hta : t ∈ tableAdds0 models existing :=
        h1 (hperm.mem_iff.mp ht)
      have htne : t ∉ existing := by
        rcases List.mem_filter.mp hta with ⟨_, hb⟩
        simp at hb
        exact hb
      intro hc
      have h6 : t ∈ existing.dedup := (List.mem_filter.mp (h2 hc)).1
      exact htne (List.mem_dedup.mp h6)
    · intro p hp
      exact ⟨fun hc => (h5 p hp).1 (hperm.mem_iff.mp hc), (h5 p hp).2⟩
  · intro etn ntn ecols fields fks adds dels rens alters h
    rcases calc_column_changes_ok_decomp h with ⟨ms, _, rfl, rfl, rfl, _⟩
    rcases colFold_inv ntn ecols fields with ⟨h1, h2, _, _, h5⟩
    constructor
    · intro c hc
      have hca : c ∈ initialNewCols ntn ecols fields := h1 hc
      have hcne : c ∉ existingColNames ecols := by
        rcases List.mem_filter.mp hca with ⟨_, hb⟩
        simp at hb
        exact hb
      intro hcdel
      have : c ∈ existingColNames ecols := by
        rcases List.mem_filter.mp (h2 hcdel) with ⟨hb, _⟩
        exact hb
      exact hcne this
    · exact h5

/-- Witness for C9: on the example schema, both levels produce disjoint
add/delete sets and renames outside both. -/
theorem rename_resolution_disjoint_witness :
    ((∀ t ∈ (["logs"] : List String), t ∉ (["zombies"] : List String)) ∧
      ∀ p ∈ ([("users", "people")] : List (String × String)),
        p.2 ∉ (["logs"] : List String) ∧
          p.1 ∉ (["zombies"] : List String)) ∧
    ((∀ c ∈ (["signup_ip"] : List String), c ∉ ([] : List String)) ∧
      ∀ p ∈ ([] : List (String × String)),
        p.2 ∉ (["signup_ip"] : List String) ∧ p.1 ∉ ([] : List String)) :=
  ⟨rename_resolution_disjoint.1 [wPeople, wLogs] ["users", "zombies"]
      ["logs"] ["zombies"] [("users", "people")] rfl,
    rename_resolution_disjoint.2 "users" "people"
      [⟨"id", "integer", false, true, "users"⟩,
        ⟨"name", "character varying", true, false, "users"⟩]
      wPeople.fields [] ["signup_ip"] [] [] [Stmt.addNotNull "people" "name"]
      rfl⟩

/-! Claim C3: alias-based table rename resolution. -/

theorem contains_congr {l1 l2 : List String} (x : String)
    (h : x ∈ l1 ↔ x ∈ l2) : l1.contains x = l2.contains x := by
  have h1 : l1.contains x = true ↔ x ∈ l1 := by simp
  have h2 : l2.contains x = true ↔ x ∈ l2 := by simp
  cases hc1 : l1.contains x <;> cases hc2 : l2.contains x
  · rfl
  · exact absurd (h1.mpr (h.mpr (h2.mp hc2)))
      (by rw [hc1]; exact Bool.false_ne_true)
  · exact absurd (h2.mpr (h.mp (h1.mp hc1)))
      (by rw [hc2]; exact Bool.false_ne_true)
  · rfl

theorem lookupLast_modelByTable_self {models : List Model} {m : Model}
    (hN : (models.map (fun x => x.db_table)).Nodup) (hm : m ∈ models) :
    lookupLast (modelByTable models) m.db_table = some m := by
  rw [modelByTable]
  exact lookupLast_keyed hN hm

theorem MInv_step {models : List Model} {existing : List String}
    {m : Model} {st : TableState} {t : String}
    (hnoint : ∀ m2 ∈ models, m2 ≠ m → ∀ a ∈ m2.aka,
      a ∈ tableDels0 models existing → a ∉ m.aka)
    (ht : t ≠ m.db_table) (h : MInv models existing m st) :
    MInv models existing m (tableRenameStep models t st) := by
  rcases h with ⟨h1, h2, h3, h4, h5, h6⟩
  rw [tableRenameStep]
  split
  · exact ⟨h1, h2, h3, h4, h5, h6⟩
  · rename_i cls hcls
    split
    · rename_i a hfind
      have hclsf := lookupLast_modelByTable hcls
      have hamem : a ∈ cls.aka := List.mem_of_find?_eq_some hfind
      have hadel : a ∈ st.deletes := by
        have := List.find?_some hfind
        simpa using this
      have hclsne : cls ≠ m := by
        intro hc
        exact ht (by rw [← hclsf.2, hc])
      have hanm : a ∉ m.aka :=
        hnoint cls hclsf.1 hclsne a hamem (h4 hadel)
      refine ⟨h1.erase t, h2.erase a, ?_, ?_, ?_, ?_⟩
      · exact (List.mem_erase_of_ne (fun hc => ht hc.symm)).mpr h3
      · exact fun x hx => h4 (List.mem_of_mem_erase hx)
      · intro x hx hxd
        exact (List.mem_erase_of_ne
          (fun hc => hanm (by rw [← hc]; exact hx))).mpr (h5 x hx hxd)
      · apply mem_dictInsert_prop
        · intro p hp
          exact h6 p hp
        · exact ⟨hanm, ht⟩
    · exact ⟨h1, h2, h3, h4, h5, h6⟩

theorem MInv_steps {models : List Model} {existing : List String}
    {m : Model}
    (hnoint : ∀ m2 ∈ models, m2 ≠ m → ∀ a ∈ m2.aka,
      a ∈ tableDels0 models existing → a ∉ m.aka) :
    ∀ (l : List String) (st : TableState), (∀ t ∈ l, t ≠ m.db_table) →
      MInv models existing m st →
      MInv models existing m
        (l.foldl (fun st t => tableRenameStep models t st) st) := by
  intro l
  induction l with
  | nil => intro st _ h; exact h
  | cons t rest ih =>
    intro st hl h
    rw [List.foldl_cons]
    exact ih _ (fun t2 ht2 => hl t2 (List.mem_cons_of_mem _ ht2))
      (MInv_step hnoint (hl t (List.mem_cons_self t rest)) h)

theorem KInv_step {models : List Model} {existing : List String}
    {m : Model} {a : String} {st : TableState} {t : String}
    (hnoint : ∀ m2 ∈ models, m2 ≠ m → ∀ a2 ∈ m2.aka,
      a2 ∈ tableDels0 models existing → a2 ∉ m.aka)
    (hamem : a ∈ m.aka) (ht : t ≠ m.db_table)
    (h : KInv models existing m a st) :
    KInv models existing m a (tableRenameStep models t st) := by
  rcases h with ⟨h1, h2, h3, h4, h5⟩
  rw [tableRenameStep]
  split
  · exact ⟨h1, h2, h3, h4, h5⟩
  · rename_i cls hcls
    split
    · rename_i a2 hfind
      have hclsf := lookupLast_modelByTable hcls
      have ha2mem : a2 ∈ cls.aka := List.mem_of_find?_eq_some hfind
      have ha2del : a2 ∈ st.deletes := by
        have := List.find?_some hfind
        simpa using this
      have hclsne : cls ≠ m := by
        intro hc
        exact ht (by rw [← hclsf.2, hc])
      have ha2nm : a2 ∉ m.aka :=
        hnoint cls hclsf.1 hclsne a2 ha2mem (h5 ha2del)
      have ha2ne : a ≠ a2 := fun hc => ha2nm (hc ▸ hamem)
      refine ⟨?_, ?_, ?_, ?_, ?_⟩
      · rw [lookupLast_dictInsert_ne _ ha2ne]
        exact h1
      · apply mem_dictInsert_prop
        · exact h2
        · intro hc
          exact absurd hc ht
      · exact fun hc => h3 (List.mem_of_mem_erase hc)
      · exact fun hc => h4 (List.mem_of_mem_erase hc)
      · exact fun x hx => h5 (List.mem_of_mem_erase hx)
    · exact ⟨h1, h2, h3, h4, h5⟩

theorem KInv_steps {models : List Model} {existing : List String}
    {m : Model} {a : String}
    (hnoint : ∀ m2 ∈ models, m2 ≠ m → ∀ a2 ∈ m2.aka,
      a2 ∈ tableDels0 models existing → a2 ∉ m.aka)
    (hamem : a ∈ m.aka) :
    ∀ (l : List String) (st : TableState), (∀ t ∈ l, t ≠ m.db_table) →
      KInv models existing m a st →
      KInv models existing m a
        (l.foldl (fun st t => tableRenameStep models t st) st) := by
  intro l
  induction l with
  | nil => intro st _ h; exact h
  | cons t rest ih =>
    intro st hl h
    rw [List.foldl_cons]
    exact ih _ (fun t2 ht2 => hl t2 (List.mem_cons_of_mem _ ht2))
      (KInv_step hnoint hamem (hl t (List.mem_cons_self t rest)) h)

/-- C3: table-level rename resolution. For a declared table (model `m`)
not among the existing tables: if its alias list has a first alias found
in the initial delete-set (in particular whenever exactly one alias
intersects it), that pair is recorded as the unique rename for the pair,
the table is removed from the add-set and the alias from the delete-set
— one rename, no create and no drop for the pair; and if no alias is in
the delete-set, no rename targets the table and it remains a pure add.
Aliases of distinct declared tables are assumed not to contend for the
same deleted table (`hnoint`). -/
theorem calc_table_changes_alias_rename (models : List Model)
    (existing : List String) (m : Model) (adds dels : List String)
    (rens : List (String × String))
    (hok : calc_table_changes models existing = .ok (adds, dels, rens))
    (hN : (models.map (fun x => x.db_table)).Nodup)
    (hm : m ∈ models)
    (hnew : m.db_table ∈ tableAdds0 models existing)
    (hnoint : ∀ m2 ∈ models, m2 ≠ m → ∀ a ∈ m2.aka,
      a ∈ tableDels0 models existing → a ∉ m.aka) :
    (∀ a, m.aka.find?
        (fun x => (tableDels0 models existing).contains x) = some a →
      lookupLast rens a = some m.db_table ∧
      (∀ p ∈ rens, p.2 = m.db_table → p = (a, m.db_table)) ∧
      m.db_table ∉ adds ∧ a ∉ dels) ∧
    ((∀ x ∈ m.aka, x ∉ tableDels0 models existing) →
      m.db_table ∈ adds ∧ ∀ p ∈ rens, p.2 ≠ m.db_table) := by
  rcases calc_table_changes_ok_decomp hok with ⟨hsort, rfl, rfl⟩
  have hperm := sort_by_fk_deps_perm hsort
  rcases List.append_of_mem hnew with ⟨l1, l2, hL⟩
  have hnodupL : (tableAdds0 models existing).Nodup :=
    (List.nodup_dedup _).filter _
  rw [hL] at hnodupL
  have hnd2 := List.nodup_append.mp hnodupL
  have hl1 : ∀ t ∈ l1, t ≠ m.db_table := by
    intro t htl hc
    exact hnd2.2.2 htl (by rw [hc]; exact List.mem_cons_self _ _)
  have hl2 : ∀ t ∈ l2, t ≠ m.db_table := by
    intro t htl hc
    have hh := (List.nodup_cons.mp hnd2.2.1).1
    rw [hc] at htl
    exact hh htl
  have hfold : tableFold models existing =
      l2.foldl (fun st t => tableRenameStep models t st)
        (tableRenameStep models m.db_table
          (l1.foldl (fun st t => tableRenameStep models t st)
            ⟨l1 ++ m.db_table :: l2, tableDels0 models existing, []⟩)) := by
    rw [tableFold, hL, List.foldl_append, List.foldl_cons]
  have hM1 : MInv models existing m
      (l1.foldl (fun st t => tableRenameStep models t st)
        ⟨l1 ++ m.db_table :: l2, tableDels0 models existing, []⟩) := by
    apply MInv_steps hnoint l1 _ hl1
    refine ⟨hnodupL, (List.nodup_dedup _).filter _, ?_, fun x hx => hx,
      fun x _ hxd => hxd, fun p hp => absurd hp (List.not_mem_nil p)⟩
    exact List.mem_append.mpr (Or.inr (List.mem_cons_self _ _))
  obtain ⟨st1, hst1⟩ :
      ∃ st1, l1.foldl (fun st t => tableRenameStep models t st)
        ⟨l1 ++ m.db_table :: l2, tableDels0 models existing, []⟩ = st1 :=
    ⟨_, rfl⟩
  rw [hst1] at hfold hM1
  rcases hM1 with ⟨hi1, hi2, hi3, hi4, hi5, hi6⟩
  have hlook : lookupLast (modelByTable models) m.db_table = some m :=
    lookupLast_modelByTable_self hN hm
  constructor
  · intro a hfind
    have hamem : a ∈ m.aka := List.mem_of_find?_eq_some hfind
    have hfind1 : m.aka.find? (fun x => st1.deletes.contains x) = some a := by
      rw [find?_congr m.aka (fun x hx =>
        contains_congr x ⟨fun h2 => hi4 h2, fun h2 => hi5 x hx h2⟩)]
      exact hfind
    have hstep : tableRenameStep models m.db_table st1 =
        ⟨st1.adds.erase m.db_table, st1.deletes.erase a,
          dictInsert a m.db_table st1.renames⟩ := by
      rw [tableRenameStep]
      simp only [hlook]
      rw [hfind1]
    have hK : KInv models existing m a
        (tableRenameStep models m.db_table st1) := by
      rw [hstep]
      refine ⟨lookupLast_dictInsert_self _ _, ?_, ?_, ?_, ?_⟩
      · apply mem_dictInsert_prop
          (P := fun p => p.2 = m.db_table → p = (a, m.db_table))
        · intro p hp hpeq
          exact absurd hpeq (hi6 p hp).2
        · intro _
          rfl
      · exact fun hc => (hi1.mem_erase_iff.mp hc).1 rfl
      · exact fun hc => (hi2.mem_erase_iff.mp hc).1 rfl
      · exact fun x hx => hi4 (List.mem_of_mem_erase hx)
    have hK2 := KInv_steps hnoint hamem l2 _ hl2 hK
    rw [← hfold] at hK2
    exact ⟨hK2.1, hK2.2.1,
      fun hc => hK2.2.2.1 (hperm.mem_iff.mp hc), hK2.2.2.2.1⟩
  · intro hnone
    have hfindnone : m.aka.find?
        (fun x => st1.deletes.contains x) = none := by
      apply List.find?_eq_none.mpr
      intro x hx hc
      have hxin : x ∈ st1.deletes := by simpa using hc
      exact hnone x hx (hi4 hxin)
    have hstep : tableRenameStep models m.db_table st1 = st1 := by
      rw [tableRenameStep]
      simp only [hlook]
      rw [hfindnone]
    have hM3 : MInv models existing m (tableFold models existing) := by
      rw [hfold, hstep]
      exact MInv_steps hnoint l2 _ hl2 ⟨hi1, hi2, hi3, hi4, hi5, hi6⟩
    rcases hM3 with ⟨_, _, hj3, _, _, hj6⟩
    exact ⟨hperm.mem_iff.mpr hj3, fun p hp => (hj6 p hp).2⟩

/-- Witness for C3: with existing tables `users`, `zombies` and declared
tables `people` (aka `users`) and `logs`, the pair `users → people` is
the unique recorded rename with no create/drop for the pair, and `logs`
(no alias in the delete-set) remains a pure add with no rename
targeting it. -/
theorem calc_table_changes_alias_rename_witness :
    (lookupLast [("users", "people")] "users" = some "people" ∧
      (∀ p ∈ ([("users", "people")] : List (String × String)),
        p.2 = "people" → p = ("users", "people")) ∧
      ("people" : String) ∉ (["logs"] : List String) ∧
      ("users" : String) ∉ (["zombies"] : List String)) ∧
    (("logs" : String) ∈ (["logs"] : List String) ∧
      ∀ p ∈ ([("users", "people")] : List (String × String)),
        p.2 ≠ "logs") :=
  ⟨(calc_table_changes_alias_rename [wPeople, wLogs] ["users", "zombies"]
      wPeople ["logs"] ["zombies"] [("users", "people")] rfl (by decide)
      (by decide) (by decide) (by decide)).1 "users" (by decide),
    (calc_table_changes_alias_rename [wPeople, wLogs] ["users", "zombies"]
      wLogs ["logs"] ["zombies"] [("users", "people")] rfl (by decide)
      (by decide) (by decide) (by decide)).2 (by decide)⟩

end PeeweeDbEvolve
